import Mathlib

/-!
Shallow embedding of the multi-source retrieval-and-ranking core of the
Ticket_Resolution_Pipeline repository, together with proofs of the
specification claims about it.

Text is modelled as `List Char` (one entry per Unicode code point, matching
Python `str` length semantics); floating-point relevance scores and graph
weights are modelled as exact rationals `ℚ`; provider calls (FAISS index,
Tavily, Twitter, language models) are modelled as explicit input data or
function parameters, since the code treats each as an opaque capability.
-/

namespace TicketPipeline

/-- Python whitespace characters relevant to `str.strip` / `\s`
(ASCII fragment; the source only manipulates ASCII-delimited text). -/
def isPyWs (c : Char) : Bool :=
  c = ' ' || c = '\t' || c = '\n' || c = '\r' || c = '\x0b' || c = '\x0c'

/-- Python `str.strip()`: drop leading and trailing whitespace. -/
def stripChars (cs : List Char) : List Char :=
  ((cs.dropWhile isPyWs).reverse.dropWhile isPyWs).reverse

/-- Join pieces with a separator, as Python `sep.join(parts)`. -/
def joinWith (sep : List Char) (parts : List (List Char)) : List Char :=
  List.intercalate sep parts

/-- Decimal digit character for `d < 10`. -/
def digitChar (d : Nat) : Char :=
  if d = 0 then '0' else if d = 1 then '1' else if d = 2 then '2'
  else if d = 3 then '3' else if d = 4 then '4' else if d = 5 then '5'
  else if d = 6 then '6' else if d = 7 then '7' else if d = 8 then '8'
  else '9'

/-- Digit accumulation for `natChars` (the fuel `n + 1` always suffices
since the value shrinks by a factor of ten each step). -/
def natCharsAux : Nat → Nat → List Char → List Char
  | 0, _, acc => acc
  | fuel + 1, n, acc =>
    if n < 10 then digitChar n :: acc
    else natCharsAux fuel (n / 10) (digitChar (n % 10) :: acc)

/-- Decimal rendering of a natural number (as Python `str(n)`/f-strings). -/
def natChars (n : Nat) : List Char := natCharsAux (n + 1) n []

/-- Decimal rendering of an integer, with a leading minus sign if negative. -/
def intChars : Int → List Char
  | Int.ofNat n => natChars n
  | Int.negSucc n => '-' :: natChars (n + 1)

/-- `pat` occurs at the start of `text` (case-sensitive). -/
def listStartsWith : List Char → List Char → Bool
  | [], _ => true
  | _ :: _, [] => false
  | p :: ps, c :: cs => p = c && listStartsWith ps cs

/-- `pat` occurs at the start of `text`, comparing case-insensitively
(both sides lowered), as `re.IGNORECASE` literal matching does. -/
def startsWithCI : List Char → List Char → Bool
  | [], _ => true
  | _ :: _, [] => false
  | p :: ps, c :: cs => p.toLower = c.toLower && startsWithCI ps cs

/-- `pat` occurs somewhere inside `text` (case-sensitive substring test,
Python `pat in text`). -/
def hasSub (pat : List Char) : List Char → Bool
  | [] => listStartsWith pat []
  | c :: cs => listStartsWith pat (c :: cs) || hasSub pat cs

/-- `pat` occurs somewhere inside `text`, case-insensitively. -/
def hasSubCI (pat : List Char) : List Char → Bool
  | [] => startsWithCI pat []
  | c :: cs => startsWithCI pat (c :: cs) || hasSubCI pat cs

/-- Case-insensitive literal matcher: consume `lit` from the front of the
input, returning the rest on success. -/
def matchLitCI : List Char → List Char → Option (List Char)
  | [], cs => some cs
  | _ :: _, [] => none
  | p :: ps, c :: cs => if p.toLower = c.toLower then matchLitCI ps cs else none

/-- Case-sensitive literal matcher. -/
def matchLit : List Char → List Char → Option (List Char)
  | [], cs => some cs
  | _ :: _, [] => none
  | p :: ps, c :: cs => if p = c then matchLit ps cs else none

/-- Single-character class matcher. -/
def matchOne (p : Char → Bool) : List Char → Option (List Char)
  | [] => none
  | c :: cs => if p c then some cs else none

/-- `class+` (greedy one-or-more) matcher. -/
def matchMany1 (p : Char → Bool) : List Char → Option (List Char)
  | [] => none
  | c :: cs => if p c then some (cs.dropWhile p) else none

/-- `re.split`-style scanner: scan left to right, at each position try the
matcher; on a match, close the current segment and continue after the match.
Mirrors `re.split(pattern, text)` for the deterministic patterns used by
`_split_combined_analysis`.  Structural recursion on a fuel that starts at
the text length: each step consumes at least one character (a match shorter
than one character is treated as no match, which never happens for the
patterns used), so the fuel never runs out. -/
def splitByAux (m : List Char → Option (List Char)) :
    Nat → List Char → List Char → List (List Char)
  | _, [], acc => [acc.reverse]
  | 0, c :: cs, acc => [acc.reverse ++ c :: cs]
  | fuel + 1, c :: cs, acc =>
    match m (c :: cs) with
    | some rest =>
      if rest.length ≤ cs.length then
        acc.reverse :: splitByAux m fuel rest []
      else
        splitByAux m fuel cs (c :: acc)
    | none => splitByAux m fuel cs (c :: acc)

/-- Split `text` by matcher occurrences (`re.split` semantics). -/
def splitBy (m : List Char → Option (List Char)) (text : List Char) :
    List (List Char) :=
  splitByAux m text.length text []

/-- Python digit class `\d` (ASCII fragment). -/
def isDig (c : Char) : Bool := c.isDigit

/-- The literal `issue` of the splitting patterns, in explicit form. -/
def issueCI : List Char := 'i' :: 's' :: 's' :: 'u' :: 'e' :: []

/-- Pattern `Issue\s*#\d+\s*:` with `re.IGNORECASE`. -/
def matchP1 (cs : List Char) : Option (List Char) := do
  let r1 ← matchLitCI issueCI cs
  let r2 := r1.dropWhile isPyWs
  let r3 ← matchOne (fun c => c = '#') r2
  let r4 ← matchMany1 isDig r3
  let r5 := r4.dropWhile isPyWs
  matchOne (fun c => c = ':') r5

/-- Pattern `Issue\s*#\d+\s*Analysis:` with `re.IGNORECASE`. -/
def matchP2 (cs : List Char) : Option (List Char) := do
  let r1 ← matchLitCI issueCI cs
  let r2 := r1.dropWhile isPyWs
  let r3 ← matchOne (fun c => c = '#') r2
  let r4 ← matchMany1 isDig r3
  let r5 := r4.dropWhile isPyWs
  matchLitCI ("analysis:".toList) r5

/-- Pattern `Analysis\s+for\s+Issue\s*#\d+` with `re.IGNORECASE`. -/
def matchP3 (cs : List Char) : Option (List Char) := do
  let r1 ← matchLitCI ("analysis".toList) cs
  let r2 ← matchMany1 isPyWs r1
  let r3 ← matchLitCI ("for".toList) r2
  let r4 ← matchMany1 isPyWs r3
  let r5 ← matchLitCI issueCI r4
  let r6 := r5.dropWhile isPyWs
  let r7 ← matchOne (fun c => c = '#') r6
  matchMany1 isDig r7

/-- Pattern `\n\n\d+\.\s`. -/
def matchP4 (cs : List Char) : Option (List Char) := do
  let r1 ← matchLit ('\n' :: '\n' :: []) cs
  let r2 ← matchMany1 isDig r1
  let r3 ← matchOne (fun c => c = '.') r2
  matchOne isPyWs r3

/-- Pattern `Issue\s+\d+\s*:` with `re.IGNORECASE`. -/
def matchP5 (cs : List Char) : Option (List Char) := do
  let r1 ← matchLitCI issueCI cs
  let r2 ← matchMany1 isPyWs r1
  let r3 ← matchMany1 isDig r2
  let r4 := r3.dropWhile isPyWs
  matchOne (fun c => c = ':') r4

/-- Pattern `I\s*\d+[:.]` with `re.IGNORECASE`. -/
def matchP6 (cs : List Char) : Option (List Char) := do
  let r1 ← matchLitCI ("i".toList) cs
  let r2 := r1.dropWhile isPyWs
  let r3 ← matchMany1 isDig r2
  matchOne (fun c => c = ':' || c = '.') r3

/-- Pattern `\n\n•\s`. -/
def matchP7 (cs : List Char) : Option (List Char) := do
  let r1 ← matchLit ('\n' :: '\n' :: '•' :: []) cs
  matchOne isPyWs r1

/-- Pattern `\n\n-\s`. -/
def matchP8 (cs : List Char) : Option (List Char) := do
  let r1 ← matchLit ('\n' :: '\n' :: '-' :: []) cs
  matchOne isPyWs r1

/-- The last-resort separator `'\n\n'`, applied via `str.split('\n\n')`. -/
def matchP9 (cs : List Char) : Option (List Char) :=
  matchLit ('\n' :: '\n' :: []) cs

/-- One strategy of the cascade: split by a pattern, strip every part, drop
blank parts, keep only parts longer than 50 characters, and succeed when at
least `expected` parts survive (returning the first `expected` of them). -/
def trySplit (m : List Char → Option (List Char)) (cleaned : List Char)
    (expected : Nat) : Option (List (List Char)) :=
  let parts := ((splitBy m cleaned).map stripChars).filter (fun p => p ≠ [])
  let filtered := parts.filter (fun p => 50 < p.length)
  if expected ≤ filtered.length then some (filtered.take expected) else none

/-- Header pattern `^\*\*[^*]+\*\*` under `re.match` (prefix, case-sensitive). -/
def matchHdr1 : List Char → Bool
  | '*' :: '*' :: c :: rest =>
    if c = '*' then false
    else
      match (c :: rest).dropWhile (fun x => x ≠ '*') with
      | '*' :: '*' :: _ => true
      | _ => false
  | _ => false

/-- Python word-character class `\w` (ASCII fragment). -/
def isWordChar (c : Char) : Bool := c.isAlphanum || c = '_'

/-- Header pattern `^#+\s*\w+` under `re.match`. -/
def matchHdr2 : List Char → Bool
  | '#' :: rest =>
    match (rest.dropWhile (fun c => c = '#')).dropWhile isPyWs with
    | c :: _ => isWordChar c
    | [] => false
  | _ => false

/-- `str.split('\n')`. -/
def splitLinesChar (text : List Char) : List (List Char) :=
  splitBy (matchLit ('\n' :: [])) text

/-- The markdown-header splitting stage: walk the stripped lines, flushing
the accumulated block whenever a header line starts and the accumulator is
non-empty; blocks of at most 50 characters are discarded. Returns the
flushed parts and the still-open accumulator. -/
def headerFold (hdr : List Char → Bool) (lines : List (List Char)) :
    List (List Char) × List (List Char) :=
  lines.foldl
    (fun st line =>
      let ls := stripChars line
      if hdr ls ∧ st.2 ≠ [] then
        let content := stripChars (joinWith ('\n' :: []) st.2)
        ((if 50 < content.length then st.1 ++ [content] else st.1), [ls])
      else
        (st.1, st.2 ++ [ls]))
    ([], [])

/-- One markdown-header strategy, including the final flush of the open
accumulator. -/
def tryHeaderSplit (hdr : List Char → Bool) (cleaned : List Char)
    (expected : Nat) : Option (List (List Char)) :=
  let st := headerFold hdr (splitLinesChar cleaned)
  let parts :=
    if st.2 ≠ [] then
      let content := stripChars (joinWith ('\n' :: []) st.2)
      if 50 < content.length then st.1 ++ [content] else st.1
    else st.1
  if expected ≤ parts.length then some (parts.take expected) else none

/-- Raw equal-size slices `text[i:i+cs]`, by structural recursion on a fuel
that starts at the text length (each step removes at least one character
since `cs ≥ 300` at the call site; `cs = 0` cannot occur there). -/
def rawChunksF (cs : Nat) : Nat → List Char → List (List Char)
  | _, [] => []
  | 0, c :: rest => [c :: rest]
  | fuel + 1, c :: rest =>
    (c :: rest).take cs :: rawChunksF cs fuel ((c :: rest).drop cs)

/-- Raw equal-size slices `text[i:i+cs]` for `i = 0, cs, 2·cs, …`. -/
def rawChunks (cs : Nat) (text : List Char) : List (List Char) :=
  rawChunksF cs text.length text

/-- The guaranteed-terminal strategy: equal portions of size
`max 300 (len // expected)`, stripped, blanks dropped, first `expected`
kept. -/
def chunkFallback (cleaned : List Char) (expected : Nat) : List (List Char) :=
  let cs := max 300 (cleaned.length / expected)
  (((rawChunks cs cleaned).map stripChars).filter (fun p => p ≠ [])).take expected

/-- `LLMReasoningAgent._split_combined_analysis`: strip the combined text,
try the nine regex strategies in order, then the two markdown-header
strategies, then fall back to equal-size chunks. -/
def splitCombinedAnalysis (combined : List Char) (expected : Nat) :
    List (List Char) :=
  let cleaned := stripChars combined
  match
    trySplit matchP1 cleaned expected <|>
    trySplit matchP2 cleaned expected <|>
    trySplit matchP3 cleaned expected <|>
    trySplit matchP4 cleaned expected <|>
    trySplit matchP5 cleaned expected <|>
    trySplit matchP6 cleaned expected <|>
    trySplit matchP7 cleaned expected <|>
    trySplit matchP8 cleaned expected <|>
    trySplit matchP9 cleaned expected <|>
    tryHeaderSplit matchHdr1 cleaned expected <|>
    tryHeaderSplit matchHdr2 cleaned expected
  with
  | some parts => parts
  | none => chunkFallback cleaned expected

/-! ## Score constants (floating-point literals of the source, as exact
rationals in kernel-computable form) -/

/-- The 0.15 local acceptance threshold of `LocalRetrievalAgent.retrieve`. -/
def localScoreThreshold : ℚ := mkRat 3 20

/-- The 0.1 graph-boost coefficient of `_apply_graph_boost`. -/
def graphBoostCoeff : ℚ := mkRat 1 10

/-- The 0.5 web relevance threshold of `retrieve_tavily`. -/
def webScoreThreshold : ℚ := mkRat 1 2

/-- The fixed 0.8 relevance score of reasoning evidence. -/
def reasoningScore : ℚ := mkRat 4 5

/-! ## Data model (src/models/schemas.py) -/

/-- `RetrievalSource`: one normalized retrieval result from any source. -/
structure RetrievalSource where
  sourceType : List Char
  content : List Char
  citation : List Char
  relevanceScore : ℚ
  date : Option (List Char)
  deriving Repr, DecidableEq

/-- `CoreIssue`: core issue identified in the user query. -/
structure CoreIssue where
  issueText : List Char
  keywords : List (List Char)
  priority : Int
  deriving Repr, DecidableEq

/-- `ExtractedEntity`: typed key/value/context triple from preprocessing. -/
structure ExtractedEntity where
  entityType : List Char
  value : List Char
  context : Option (List Char)
  deriving Repr, DecidableEq

/-- `PreprocessingOutput`. -/
structure PreprocessingOutput where
  cleanedText : List Char
  detectedIntent : List Char
  coreIssues : List CoreIssue
  entities : List ExtractedEntity
  language : List Char
  deriving Repr, DecidableEq

/-- `ClassificationOutput` (confidence map omitted: never read by the
retrieval core). -/
structure ClassificationOutput where
  primaryCategory : List Char
  secondaryCategories : List (List Char)
  subType : Option (List Char)
  deriving Repr, DecidableEq

/-- `RetrievalOutput`: the per-query evidence bundle. -/
structure RetrievalOutput where
  twitterResults : List RetrievalSource
  localResults : List RetrievalSource
  webResults : List RetrievalSource
  llmReasoning : List RetrievalSource
  totalSources : Nat
  retrievalTime : ℚ
  deriving Repr, DecidableEq

/-- `AgentState` (fields the retrieval orchestrator reads or writes). -/
structure AgentState where
  userQuery : List Char
  errors : List (List Char)
  preprocessingOutput : Option PreprocessingOutput
  classificationOutput : Option ClassificationOutput
  retrievalOutput : Option RetrievalOutput
  deriving Repr, DecidableEq

/-! ## LLMReasoningAgent (src/agents/retrieval_agents.py) -/

/-- Strip one leading `**` (then left-strip) and one trailing `**`
(then right-strip), as the markdown clean-up in `LLMReasoningAgent.retrieve`
does. -/
def cleanMarkdown (analysis : List Char) : List Char :=
  let c1 := stripChars analysis
  let c2 :=
    if listStartsWith ('*' :: '*' :: []) c1 then (c1.drop 2).dropWhile isPyWs
    else c1
  if listStartsWith ('*' :: '*' :: []) c2.reverse then
    ((c2.reverse.drop 2).dropWhile isPyWs).reverse
  else c2

/-- The formatted per-issue evidence built for issue `idx` (0-based) from one
split analysis segment. -/
def perIssueEvidence (issues : List CoreIssue) (idx : Nat)
    (analysis : List Char) : RetrievalSource :=
  let issue := issues.getD idx ⟨[], [], 0⟩
  let contentParts : List (List Char) :=
    [ ("**Core Issue ".toList) ++ natChars (idx + 1) ++ ("**: ".toList) ++ issue.issueText
    , ("**Priority**: ".toList) ++ intChars issue.priority
    , ("**Keywords**: ".toList) ++ joinWith (", ".toList) issue.keywords
    , []
    , ("**LLM Analysis:**".toList)
    , cleanMarkdown (stripChars analysis) ]
  { sourceType := "llm_reasoning".toList
    content := joinWith ('\n' :: []) contentParts
    citation := ("Reasoning LLM Analysis - Issue ".toList) ++ natChars (idx + 1)
    relevanceScore := reasoningScore
    date := none }

/-- The enumerate-and-filter loop of `LLMReasoningAgent.retrieve`: keep the
segments whose stripped text is non-empty and whose index is below the issue
count, building formatted evidence for each. -/
def buildPerIssueAux (issues : List CoreIssue) :
    Nat → List (List Char) → List RetrievalSource
  | _, [] => []
  | idx, a :: rest =>
    if stripChars a ≠ [] ∧ idx < issues.length then
      perIssueEvidence issues idx a :: buildPerIssueAux issues (idx + 1) rest
    else
      buildPerIssueAux issues (idx + 1) rest

/-- The `core_issues_parts` loop of the combined fallback: four lines per
issue, in issue order. -/
def combinedIssueParts : List CoreIssue → Nat → List (List Char)
  | [], _ => []
  | issue :: rest, idx =>
    (("**Core Issue ".toList) ++ natChars (idx + 1) ++ ("**: ".toList) ++
        issue.issueText)
      :: (("**Priority**: ".toList) ++ intChars issue.priority)
      :: (("**Keywords**: ".toList) ++ joinWith (", ".toList) issue.keywords)
      :: [] :: combinedIssueParts rest (idx + 1)

/-- The combined-fallback evidence emitted when no per-issue segment was
usable but the raw response is non-blank. -/
def combinedEvidence (issues : List CoreIssue) (combined : List Char) :
    RetrievalSource :=
  let contentParts := combinedIssueParts issues 0 ++
    [ ("**Combined LLM Analysis:**".toList), cleanMarkdown combined ]
  { sourceType := "llm_reasoning".toList
    content := joinWith ('\n' :: []) contentParts
    citation := "Reasoning LLM Analysis - Combined".toList
    relevanceScore := reasoningScore
    date := none }

/-- `LLMReasoningAgent.retrieve`. The reasoning model call is modelled by
its outcome `modelResponse`: `.error` for a raised exception, `.ok none`
for a falsy response object, `.ok (some text)` for a reply carrying `text`.
`clientAvailable` models whether `Config.get_reasoning_llm()` produced a
client. -/
def llmRetrieve (clientAvailable : Bool) (coreIssues : List CoreIssue)
    (_entities : List ExtractedEntity)
    (modelResponse : Except (List Char) (Option (List Char))) :
    List RetrievalSource :=
  match clientAvailable with
  | false => []
  | true =>
    if coreIssues = [] then []
    else
    match modelResponse with
    | Except.error _ => []
    | Except.ok none => []
    | Except.ok (some text) =>
      let combined := stripChars text
      let analyses := splitCombinedAnalysis combined coreIssues.length
      let results := buildPerIssueAux coreIssues 0 analyses
      if results = [] ∧ stripChars combined ≠ [] then
        [combinedEvidence coreIssues combined]
      else results

/-! ## LightweightKnowledgeGraph (src/utils/knowledge_graph.py) -/

/-- One edge row loaded from the `edges` table. -/
structure KEdge where
  source : List Char
  target : List Char
  relation : List Char
  weight : ℚ
  deriving Repr, DecidableEq

/-- One node row loaded from the `nodes` table. -/
structure KNode where
  nodeId : List Char
  entityType : List Char
  label : List Char
  deriving Repr, DecidableEq

/-- The in-memory directed graph built by `LightweightKnowledgeGraph.load`.
As in `networkx.DiGraph`, endpoints of edges are nodes even without a row in
the `nodes` table, and a repeated `(source, target)` pair overwrites the
edge attributes (we assume at most one row per pair, as the loader
produces). -/
structure KGraph where
  nodes : List KNode
  edges : List KEdge
  deriving Repr, DecidableEq

/-- Node membership, `entity in self.graph`. -/
def memGraph (g : KGraph) (entity : List Char) : Bool :=
  g.nodes.any (fun n => n.nodeId = entity) ||
    g.edges.any (fun e => e.source = entity || e.target = entity)

/-- Successor list of a node, in edge insertion order, deduplicated
(`self.graph.neighbors(node)`). -/
def neighborsOf (g : KGraph) (node : List Char) : List (List Char) :=
  (((g.edges.filter (fun e => e.source = node)).map KEdge.target)).dedup

/-- Edge attributes for `(node, neighbor)`
(`self.graph.get_edge_data(node, neighbor)` with the loader's defaults). -/
def edgeDataOf (g : KGraph) (node neighbor : List Char) : List Char × ℚ :=
  match g.edges.find? (fun e => e.source = node ∧ e.target = neighbor) with
  | some e => (e.relation, e.weight)
  | none => ("related_to".toList, 1)

/-- Node attributes (`self.graph.nodes.get(neighbor, {})` with the
`find_related` defaults). -/
def nodeInfoOf (g : KGraph) (entity : List Char) : List Char × List Char :=
  match g.nodes.find? (fun n => n.nodeId = entity) with
  | some n => (n.entityType, n.label)
  | none => ("unknown".toList, entity)

/-- One `find_related` result row. -/
structure RelatedEntry where
  entity : List Char
  relation : List Char
  weight : ℚ
  depth : Nat
  entityType : List Char
  label : List Char
  deriving Repr, DecidableEq

/-- The result row built when `neighbor` is first reached from `node` at
`depth`. -/
def mkRelated (g : KGraph) (node neighbor : List Char) (depth : Nat) :
    RelatedEntry :=
  let ed := edgeDataOf g node neighbor
  let ni := nodeInfoOf g neighbor
  { entity := neighbor, relation := ed.1, weight := ed.2,
    depth := depth + 1, entityType := ni.1, label := ni.2 }

/-- The inner `for neighbor in self.graph.neighbors(node)` loop of
`find_related`: visit unvisited neighbors, appending a result row for each;
once `max_results` rows exist, `break` (the breaking neighbor is recorded
but not queued for the next level). Returns
(visited, related, next-level additions). -/
def procNeighbors (g : KGraph) (maxResults : Nat) (node : List Char)
    (depth : Nat) :
    List (List Char) → List (List Char) → List RelatedEntry →
    List (List Char × Nat) →
    List (List Char) × List RelatedEntry × List (List Char × Nat)
  | [], visited, related, nextLevel => (visited, related, nextLevel)
  | nb :: rest, visited, related, nextLevel =>
    if nb ∈ visited then
      procNeighbors g maxResults node depth rest visited related nextLevel
    else
      let visited' := nb :: visited
      let related' := related ++ [mkRelated g node nb depth]
      if maxResults ≤ related'.length then (visited', related', nextLevel)
      else
        procNeighbors g maxResults node depth rest visited' related'
          (nextLevel ++ [(nb, depth + 1)])

/-- The `for node, depth in current_level` loop: nodes at `max_depth` or
deeper are not expanded. -/
def procLevel (g : KGraph) (maxDepth maxResults : Nat) :
    List (List Char × Nat) → List (List Char) → List RelatedEntry →
    List (List Char × Nat) →
    List (List Char) × List RelatedEntry × List (List Char × Nat)
  | [], visited, related, nextLevel => (visited, related, nextLevel)
  | (node, depth) :: rest, visited, related, nextLevel =>
    if maxDepth ≤ depth then
      procLevel g maxDepth maxResults rest visited related nextLevel
    else
      let st := procNeighbors g maxResults node depth (neighborsOf g node)
        visited related nextLevel
      procLevel g maxDepth maxResults rest st.1 st.2.1 st.2.2

/-- The `while current_level and len(related) < max_results` loop. Every
entry of level `i` has depth `i`, and nodes at depth `max_depth` are not
expanded, so the loop runs at most `max_depth + 1` times; the fuel
`max_depth + 2` therefore always reaches the natural exit. -/
def bfsLoop (g : KGraph) (maxDepth maxResults : Nat) :
    Nat → List (List Char × Nat) → List (List Char) → List RelatedEntry →
    List RelatedEntry
  | 0, _, _, related => related
  | fuel + 1, currentLevel, visited, related =>
    if currentLevel = [] ∨ maxResults ≤ related.length then related
    else
      let st := procLevel g maxDepth maxResults currentLevel visited related []
      bfsLoop g maxDepth maxResults fuel st.2.2 st.1 st.2.1

/-- The final ordering key of `find_related`: sort by
`(-weight, depth)` ascending, i.e. weight descending with ties broken by
ascending depth. -/
def relatedOrder (a b : RelatedEntry) : Prop :=
  b.weight < a.weight ∨ (a.weight = b.weight ∧ a.depth ≤ b.depth)

instance : DecidableRel relatedOrder :=
  fun a b => inferInstanceAs
    (Decidable (b.weight < a.weight ∨ (a.weight = b.weight ∧ a.depth ≤ b.depth)))

instance : IsTotal RelatedEntry relatedOrder := by
  refine ⟨fun a b => ?_⟩
  rcases lt_trichotomy a.weight b.weight with h | h | h
  · exact Or.inr (Or.inl h)
  · rcases le_total a.depth b.depth with hd | hd
    · exact Or.inl (Or.inr ⟨h, hd⟩)
    · exact Or.inr (Or.inr ⟨h.symm, hd⟩)
  · exact Or.inl (Or.inl h)

instance : IsTrans RelatedEntry relatedOrder := by
  refine ⟨fun a b c hab hbc => ?_⟩
  rcases hab with h1 | ⟨h1, h2⟩ <;> rcases hbc with h3 | ⟨h3, h4⟩
  · exact Or.inl (lt_trans h3 h1)
  · exact Or.inl (by rw [← h3]; exact h1)
  · exact Or.inl (by rw [h1]; exact h3)
  · exact Or.inr ⟨h1.trans h3, le_trans h2 h4⟩

/-- `LightweightKnowledgeGraph.find_related` (Python's stable `list.sort`
modelled by stable insertion sort, as for the local retriever). -/
def findRelated (g : KGraph) (entity : List Char) (maxDepth maxResults : Nat) :
    List RelatedEntry :=
  match memGraph g entity with
  | false => []
  | true =>
    let related :=
      bfsLoop g maxDepth maxResults (maxDepth + 2) [(entity, 0)] [entity] []
    (related.insertionSort relatedOrder).take maxResults

/-! ## LocalRetrievalAgent (src/agents/retrieval_agents.py) -/

/-- Document metadata exposed by the vector store
(`filename`, `source`, `page`, `category`, `date`; `page` is falsy when
empty). -/
structure DocMeta where
  filename : Option (List Char)
  source : Option (List Char)
  page : List Char
  category : Option (List Char)
  date : Option (List Char)
  deriving Repr, DecidableEq

/-- One `(document, score)` pair returned by
`similarity_search_with_score` (FAISS distance: lower is better). -/
structure ScoredDoc where
  pageContent : List Char
  metadata : DocMeta
  score : ℚ
  deriving Repr, DecidableEq

/-- Intermediate record of the retrieval pipeline (the Python dict with
`content`, `metadata`, `score`, `citation`). -/
structure VecResult where
  content : List Char
  metadata : DocMeta
  score : ℚ
  citation : List Char
  deriving Repr, DecidableEq

/-- Citation building: filename (falling back to `source`, then
`"Unknown"`), with `", p<page>"` appended when the page metadata is
truthy. -/
def mkCitation (meta : DocMeta) : List Char :=
  let filename := meta.filename.getD (meta.source.getD ("Unknown".toList))
  if meta.page ≠ [] then filename ++ (", p".toList) ++ meta.page
  else filename

/-- Phase 1 of `LocalRetrievalAgent.retrieve`: drop documents failing the
category filter and attach citations. -/
def vectorPhase (filterCategory : Option (List Char)) (docs : List ScoredDoc) :
    List VecResult :=
  docs.filterMap (fun d =>
    match filterCategory with
    | some f =>
      if d.metadata.category = some f then
        some ⟨d.pageContent, d.metadata, d.score, mkCitation d.metadata⟩
      else none
    | none => some ⟨d.pageContent, d.metadata, d.score, mkCitation d.metadata⟩)

/-- Lower-cased copy of a string (Python `str.lower()`, ASCII fragment). -/
def lowerChars (cs : List Char) : List Char := cs.map Char.toLower

/-- The additive boost a result receives: `0.1 ×` the weight of every
related entity whose lower-cased name occurs in the lower-cased content. -/
def boostOf (relatedEntities : List RelatedEntry) (content : List Char) : ℚ :=
  (relatedEntities.map (fun r =>
    if hasSub (lowerChars r.entity) (lowerChars content) then
      r.weight * graphBoostCoeff
    else 0)).sum

/-- `LocalRetrievalAgent._apply_graph_boost`. The entity extraction and the
graph lookups are modelled by their combined outcome `graphLookup`: an
exception leaves the input untouched, as does an empty related-entity
list; otherwise every result's score is lowered by its accumulated
boost. -/
def applyGraphBoost (graphLookup : Except (List Char) (List RelatedEntry))
    (vectorResults : List VecResult) : List VecResult :=
  match graphLookup with
  | Except.error _ => vectorResults
  | Except.ok relatedEntities =>
    if relatedEntities = [] then vectorResults
    else
      vectorResults.map (fun r =>
        { r with score := r.score - boostOf relatedEntities r.content })

/-- Score comparison used by phase 3's ascending sort
(`vector_results.sort(key=lambda x: x['score'])`). -/
def scoreOrder (a b : VecResult) : Prop := a.score ≤ b.score

instance : DecidableRel scoreOrder :=
  fun a b => inferInstanceAs (Decidable (a.score ≤ b.score))

instance : IsTotal VecResult scoreOrder :=
  ⟨fun a b => le_total a.score b.score⟩

instance : IsTrans VecResult scoreOrder :=
  ⟨fun _ _ _ hab hbc => le_trans hab hbc⟩

/-- `LocalRetrievalAgent.retrieve`. The FAISS call is modelled by the
`docs` it returns (the over-fetch factor only parameterizes that call);
`storeLoaded` models `self.vector_store` being present, `graphActive`
models `use_graph and self.graph_retriever`.  Python's stable `list.sort`
is modelled by the stable insertion sort (a stable sort's output is
uniquely determined, so any stable sort is extensionally the same
function). -/
def localRetrieve (storeLoaded : Bool) (graphActive : Bool)
    (graphLookup : Except (List Char) (List RelatedEntry))
    (docs : List ScoredDoc) (k : Nat) (filterCategory : Option (List Char)) :
    List RetrievalSource :=
  match storeLoaded with
  | false => []
  | true =>
    let vectorResults := vectorPhase filterCategory docs
    let boosted :=
      if graphActive then applyGraphBoost graphLookup vectorResults
      else vectorResults
    let ranked := (boosted.insertionSort scoreOrder).filter
      (fun r => decide (r.score < localScoreThreshold))
    let limited := ranked.take k
    limited.map (fun r =>
      { sourceType := "local_knowledge_base".toList
        content := r.content
        citation := r.citation
        relevanceScore := r.score
        date := r.metadata.date })

/-! ## WebRetrievalAgent (src/agents/retrieval_agents.py) -/

/-- The `category_context` table of `_build_focused_query_regex`. -/
def categoryContext (category : List Char) : List Char :=
  if category = "gstr_filing".toList then "GST return filing".toList
  else if category = "penalty_notice".toList then "GST penalty late fee notice".toList
  else if category = "refund".toList then "GST refund process".toList
  else if category = "registration".toList then "GST registration".toList
  else if category = "itc_mismatch".toList then "GST ITC mismatch".toList
  else if category = "eway_bill".toList then "GST e-way bill".toList
  else if category = "portal_error".toList then "GST portal error".toList
  else "GST".toList

/-- Python `s.rsplit(' ', 1)[0]`: everything before the last space, or the
whole string when it has no space. -/
def dropLastWord (t : List Char) : List Char :=
  if t.contains ' ' then
    (((t.reverse).dropWhile (fun c => c ≠ ' ')).drop 1).reverse
  else t

/-- `WebRetrievalAgent._build_focused_query_regex` from the chosen query
parts (either `keywords[:5]` or the regex-extracted key terms — the length
bound below holds for every possible choice, so the parts list is taken as
input); prepends the category phrase when category filtering is active,
joins with spaces, and word-boundary-truncates to `max_length = 350`. -/
def buildFocusedQueryRegex (queryParts : List (List Char))
    (category : Option (List Char)) (unrestricted : Bool) : List Char :=
  let parts :=
    match category with
    | some cat => if ¬ unrestricted then categoryContext cat :: queryParts
                  else queryParts
    | none => queryParts
  let focused := joinWith (' ' :: []) parts
  if 350 < focused.length then dropLastWord (focused.take 350)
  else focused

/-- `WebRetrievalAgent._build_focused_query_with_llm`: on success the
LLM reply is stripped and truncated to 350 characters; on failure the regex
fallback is used. -/
def buildFocusedQueryWithLLM (llmReply : Except (List Char) (List Char))
    (queryParts : List (List Char)) (category : Option (List Char))
    (unrestricted : Bool) : List Char :=
  match llmReply with
  | Except.ok reply => (stripChars reply).take 350
  | Except.error _ => buildFocusedQueryRegex queryParts category unrestricted

/-- `WebRetrievalAgent._build_focused_query_tavily`: prefer the LLM
condenser when available. -/
def buildFocusedQueryTavily (llmAvailable : Bool)
    (llmReply : Except (List Char) (List Char))
    (queryParts : List (List Char)) (category : Option (List Char))
    (unrestricted : Bool) : List Char :=
  if llmAvailable then
    buildFocusedQueryWithLLM llmReply queryParts category unrestricted
  else buildFocusedQueryRegex queryParts category unrestricted

/-- The emergency truncation of `retrieve_tavily`: the query string that is
actually passed to the search provider. -/
def tavilyQuerySent (query : List Char) : List Char :=
  if 400 < query.length then query.take 397 ++ ("...".toList)
  else query

/-- One raw result row of the Tavily response, with every field optional as
`result.get` treats them. -/
structure TavilyResult where
  content : Option (List Char)
  url : Option (List Char)
  score : Option ℚ
  publishedDate : Option (List Char)
  deriving Repr, DecidableEq

/-- The result mapping of `WebRetrievalAgent.retrieve_tavily`: keep rows
whose reported score exceeds 0.5 and normalize them into evidence
records. -/
def tavilyResults (response : List TavilyResult) : List RetrievalSource :=
  (response.filter (fun r => decide (webScoreThreshold < r.score.getD 0))).map
    (fun r =>
      { sourceType := "web_search".toList
        content := r.content.getD []
        citation := r.url.getD []
        relevanceScore := r.score.getD 0
        date := r.publishedDate })

/-- End-to-end query construction of the web agent on the Tavily path: the
string handed to `client.search`. -/
def webQuerySent (llmAvailable : Bool)
    (llmReply : Except (List Char) (List Char))
    (queryParts : List (List Char)) (category : Option (List Char))
    (unrestricted : Bool) : List Char :=
  tavilyQuerySent
    (buildFocusedQueryTavily llmAvailable llmReply queryParts category
      unrestricted)

/-! ## RetrievalOrchestratorAgent and escalation gate
(src/agents/resolution_agents.py, src/workflows/gst_workflow.py) -/

/-- The combined keyword list the orchestrator builds for the web and
Twitter retrievers. -/
def buildAllKeywords (preprocessing : PreprocessingOutput)
    (classification : Option ClassificationOutput) : List (List Char) :=
  (preprocessing.coreIssues.map CoreIssue.issueText) ++
    (preprocessing.entities.map ExtractedEntity.value) ++
    (match classification with
     | some c => c.primaryCategory :: c.secondaryCategories
     | none => [])

/-- The zero-evidence bundle installed on the two failure paths. -/
def emptyRetrievalOutput : RetrievalOutput :=
  { twitterResults := [], localResults := [], webResults := [],
    llmReasoning := [], totalSources := 0, retrievalTime := 0 }

/-- `RetrievalOrchestratorAgent.process`. Each retriever is a function
parameter (its own failure policy makes it return a list, possibly empty);
`crash` models an exception raised while the retrievers run, caught by the
orchestrator's own handler. The status callback is advisory telemetry with
no effect on the state and is omitted. -/
def orchestratorProcess (st : AgentState)
    (twitterAgent : List (List Char) → List RetrievalSource)
    (localAgent : List Char → Option (List Char) → List RetrievalSource)
    (webAgent : List Char → Option (List Char) → List (List Char) →
      List RetrievalSource)
    (llmAgent : List CoreIssue → List ExtractedEntity → List RetrievalSource)
    (unrestrictedCfg : Bool)
    (crash : Option (List Char)) : AgentState :=
  match st.preprocessingOutput with
  | none =>
    { st with
      errors := st.errors ++ ["No preprocessing output available".toList]
      retrievalOutput := some emptyRetrievalOutput }
  | some preprocessing =>
    match crash with
    | some e =>
      { st with
        errors := st.errors ++ [e]
        retrievalOutput := some emptyRetrievalOutput }
    | none =>
      let classification := st.classificationOutput
      let allKeywords := buildAllKeywords preprocessing classification
      let filterCat :=
        match classification with
        | some c => if ¬ unrestrictedCfg then some c.primaryCategory else none
        | none => none
      let twitterResults := twitterAgent allKeywords
      let localResults := localAgent st.userQuery filterCat
      let webResults := webAgent st.userQuery filterCat allKeywords
      let llmReasoning := llmAgent preprocessing.coreIssues
        preprocessing.entities
      { st with
        retrievalOutput := some
          { twitterResults := twitterResults
            localResults := localResults
            webResults := webResults
            llmReasoning := llmReasoning
            totalSources := twitterResults.length + localResults.length +
              webResults.length + llmReasoning.length
            retrievalTime := 0 } }

/-- `ResolverOutput` (resolutions collapsed to the fields the gate
manipulates: the unified resolution content and its null-reason). -/
structure ResolverOutput where
  resolution : Option (List Char)
  reasonForNull : Option (List Char)
  overallConfidence : Nat
  requiresEscalation : Bool
  deriving Repr, DecidableEq

/-- Modelled from the spec: the escalation gate (the MINIMUM CONFIDENCE
RULE). The repository states this rule only as prompt text inside
`ResolverAgent.process` — "If overall_confidence < 95: set the resolution
field to null, set reason_for_null, set requires_escalation to true" — and
the nulling itself is carried out by the external resolver model, so the
executable gate is not in `src/`; this definition embeds the rule those
prompt lines and the spec state, with 95 as the fixed minimum threshold. -/
def escalationGate (confidence : Nat) (resolution : List Char)
    (reason : List Char) : ResolverOutput :=
  if confidence < 95 then
    { resolution := none, reasonForNull := some reason,
      overallConfidence := confidence, requiresEscalation := true }
  else
    { resolution := some resolution, reasonForNull := none,
      overallConfidence := confidence, requiresEscalation := false }

/-- `should_escalate` from the workflow: route on the escalation flag. -/
def shouldEscalate (resolverOutput : Option ResolverOutput) : List Char :=
  match resolverOutput with
  | some out => if out.requiresEscalation then "escalate".toList
                else "continue".toList
  | none => "continue".toList

/-! ## Theorems -/

/-- C2: the escalation gate nulls the resolution and sets the escalation
flag exactly when the synthesis confidence is below the fixed threshold 95:
at confidence 94 the resolution is nulled (with a reason attached) and the
flag is true, routing the workflow to escalation; at confidence 95 the
resolution is preserved and the flag is false, routing to continue; in
general the flag is set iff confidence < 95. -/
theorem escalation_gate_threshold :
    (∀ res reason, (escalationGate 94 res reason).resolution = none ∧
      (escalationGate 94 res reason).reasonForNull = some reason ∧
      (escalationGate 94 res reason).requiresEscalation = true ∧
      shouldEscalate (some (escalationGate 94 res reason)) =
        "escalate".toList) ∧
    (∀ res reason, (escalationGate 95 res reason).resolution = some res ∧
      (escalationGate 95 res reason).requiresEscalation = false ∧
      shouldEscalate (some (escalationGate 95 res reason)) =
        "continue".toList) ∧
    (∀ confidence res reason,
      (escalationGate confidence res reason).requiresEscalation = true ↔
        confidence < 95) := by
  refine ⟨fun res reason => ?_, fun res reason => ?_,
    fun confidence res reason => ?_⟩
  · simp [escalationGate, shouldEscalate]
  · simp [escalationGate, shouldEscalate]
  · constructor
    · intro h
      by_contra hc
      simp [escalationGate, hc] at h
    · intro h
      simp [escalationGate, h]

/-- C3: every bundle installed by the orchestrator — on the success path
for arbitrary per-source results (each source's own failure policy already
reduces its failure to an empty list), on the missing-preprocessing path,
and on the internal-exception path — has `total_sources` equal to the sum
of the lengths of the four per-source sequences. -/
theorem orchestrator_total_sources (st : AgentState) (twitterAgent localAgent
    webAgent llmAgent) (unrestrictedCfg : Bool) (crash : Option (List Char)) :
    ∀ out, (orchestratorProcess st twitterAgent localAgent webAgent llmAgent
        unrestrictedCfg crash).retrievalOutput = some out →
      out.totalSources = out.twitterResults.length + out.localResults.length +
        out.webResults.length + out.llmReasoning.length := by
  intro out h
  unfold orchestratorProcess at h
  cases hp : st.preprocessingOutput with
  | none =>
    rw [hp] at h
    simp at h
    subst h
    rfl
  | some preprocessing =>
    rw [hp] at h
    cases crash with
    | some e =>
      simp at h
      subst h
      rfl
    | none =>
      simp at h
      subst h
      rfl

/-- Witness for C3 at concrete inputs: a state with preprocessing present
and retrievers returning one local result; the produced bundle's total is
its four lengths summed. -/
theorem orchestrator_total_sources_witness :
    ({ twitterResults := []
       localResults := [⟨['l'], ['c'], ['s'], mkRat 1 10, none⟩]
       webResults := []
       llmReasoning := []
       totalSources := 1
       retrievalTime := 0 } : RetrievalOutput).totalSources =
      ({ twitterResults := []
         localResults := [⟨['l'], ['c'], ['s'], mkRat 1 10, none⟩]
         webResults := []
         llmReasoning := []
         totalSources := 1
         retrievalTime := 0 } : RetrievalOutput).twitterResults.length +
      ({ twitterResults := []
         localResults := [⟨['l'], ['c'], ['s'], mkRat 1 10, none⟩]
         webResults := []
         llmReasoning := []
         totalSources := 1
         retrievalTime := 0 } : RetrievalOutput).localResults.length +
      ({ twitterResults := []
         localResults := [⟨['l'], ['c'], ['s'], mkRat 1 10, none⟩]
         webResults := []
         llmReasoning := []
         totalSources := 1
         retrievalTime := 0 } : RetrievalOutput).webResults.length +
      ({ twitterResults := []
         localResults := [⟨['l'], ['c'], ['s'], mkRat 1 10, none⟩]
         webResults := []
         llmReasoning := []
         totalSources := 1
         retrievalTime := 0 } : RetrievalOutput).llmReasoning.length :=
  orchestrator_total_sources
    ⟨[], [], some ⟨[], [], [⟨['q'], [], 1⟩], [], []⟩, none, none⟩
    (fun _ => []) (fun _ _ => [⟨['l'], ['c'], ['s'], mkRat 1 10, none⟩])
    (fun _ _ _ => []) (fun _ _ => []) true none
    { twitterResults := []
      localResults := [⟨['l'], ['c'], ['s'], mkRat 1 10, none⟩]
      webResults := []
      llmReasoning := []
      totalSources := 1
      retrievalTime := 0 }
    (by decide)

/-- C7: when the orchestrator is invoked with the upstream preprocessing
output absent, it does not raise: the state it returns carries a bundle
whose four sequences are empty with `total_sources = 0`, and the condition
is appended to the query's error list. -/
theorem orchestrator_upstream_missing (st : AgentState) (twitterAgent
    localAgent webAgent llmAgent) (unrestrictedCfg : Bool)
    (crash : Option (List Char))
    (h : st.preprocessingOutput = none) :
    (orchestratorProcess st twitterAgent localAgent webAgent llmAgent
        unrestrictedCfg crash).retrievalOutput = some emptyRetrievalOutput ∧
    emptyRetrievalOutput.twitterResults = [] ∧
    emptyRetrievalOutput.localResults = [] ∧
    emptyRetrievalOutput.webResults = [] ∧
    emptyRetrievalOutput.llmReasoning = [] ∧
    emptyRetrievalOutput.totalSources = 0 ∧
    ("No preprocessing output available".toList) ∈
      (orchestratorProcess st twitterAgent localAgent webAgent llmAgent
        unrestrictedCfg crash).errors := by
  unfold orchestratorProcess
  rw [h]
  refine ⟨rfl, rfl, rfl, rfl, rfl, rfl, ?_⟩
  simp

/-- Witness for C7: a concrete state with no preprocessing output. -/
theorem orchestrator_upstream_missing_witness :
    (orchestratorProcess ⟨['q'], [['e']], none, none, none⟩ (fun _ => [])
        (fun _ _ => []) (fun _ _ _ => []) (fun _ _ => []) true
        none).retrievalOutput = some emptyRetrievalOutput ∧
    emptyRetrievalOutput.twitterResults = [] ∧
    emptyRetrievalOutput.localResults = [] ∧
    emptyRetrievalOutput.webResults = [] ∧
    emptyRetrievalOutput.llmReasoning = [] ∧
    emptyRetrievalOutput.totalSources = 0 ∧
    ("No preprocessing output available".toList) ∈
      (orchestratorProcess ⟨['q'], [['e']], none, none, none⟩ (fun _ => [])
        (fun _ _ => []) (fun _ _ _ => []) (fun _ _ => []) true
        none).errors :=
  orchestrator_upstream_missing _ _ _ _ _ _ _ rfl

/-- Indexing into a mapped list with an in-range index applies the function
pointwise (defaults are irrelevant). -/
theorem getD_map_lt {α β : Type} (f : α → β) :
    ∀ (l : List α) (i : Nat) (d₁ : α) (d₂ : β), i < l.length →
      (l.map f).getD i d₂ = f (l.getD i d₁) := by
  intro l
  induction l with
  | nil => intro i d₁ d₂ h; simp at h
  | cons a t ih =>
    intro i d₁ d₂ h
    cases i with
    | zero => rfl
    | succ j =>
      simp only [List.map_cons, List.getD_cons_succ]
      exact ih j d₁ d₂ (Nat.lt_of_succ_lt_succ h)

/-- The boost accumulated from an empty related-entity list is zero. -/
theorem boostOf_nil (content : List Char) : boostOf [] content = 0 := by
  simp [boostOf]

/-- C9: `_apply_graph_boost` is a pure per-element re-scoring.  When the
graph lookup raises, the input list is returned unchanged; otherwise the
output has the same length and each element keeps its content, citation and
metadata, with only the score changed — lowered by the accumulated boost of
the related entities found in its content. -/
theorem apply_graph_boost_frame :
    (∀ err results, applyGraphBoost (Except.error err) results = results) ∧
    (∀ relatedEntities results,
      (applyGraphBoost (Except.ok relatedEntities) results).length =
        results.length ∧
      ∀ i d, i < results.length →
        ((applyGraphBoost (Except.ok relatedEntities) results).getD i
            d).content = (results.getD i d).content ∧
        ((applyGraphBoost (Except.ok relatedEntities) results).getD i
            d).citation = (results.getD i d).citation ∧
        ((applyGraphBoost (Except.ok relatedEntities) results).getD i
            d).metadata = (results.getD i d).metadata ∧
        ((applyGraphBoost (Except.ok relatedEntities) results).getD i
            d).score = (results.getD i d).score -
          boostOf relatedEntities ((results.getD i d).content)) := by
  constructor
  · intro err results; rfl
  · intro relatedEntities results
    by_cases hr : relatedEntities = []
    · subst hr
      constructor
      · rfl
      · intro i d hi
        simp [applyGraphBoost, boostOf_nil]
    · constructor
      · simp [applyGraphBoost, hr]
      · intro i d hi
        have hmap : applyGraphBoost (Except.ok relatedEntities) results =
            results.map (fun r =>
              { r with score := r.score - boostOf relatedEntities r.content }) := by
          simp [applyGraphBoost, hr]
        rw [hmap, getD_map_lt _ results i d _ hi]
        exact ⟨rfl, rfl, rfl, rfl⟩

/-- Witness for C9 at a concrete input: one related entity whose name
occurs in the single result's content. -/
theorem apply_graph_boost_frame_witness :
    (applyGraphBoost
        (Except.ok [⟨"gst".toList, ['r'], 2, 1, ['t'], ['l']⟩])
        [⟨"gst portal".toList, ⟨none, none, [], none, none⟩, mkRat 1 10,
          ['c']⟩]).length = 1 ∧
    ((applyGraphBoost
        (Except.ok [⟨"gst".toList, ['r'], 2, 1, ['t'], ['l']⟩])
        [⟨"gst portal".toList, ⟨none, none, [], none, none⟩, mkRat 1 10,
          ['c']⟩]).getD 0
        ⟨[], ⟨none, none, [], none, none⟩, 0, []⟩).score =
      (([⟨"gst portal".toList, ⟨none, none, [], none, none⟩, mkRat 1 10,
          ['c']⟩] : List VecResult).getD 0
        ⟨[], ⟨none, none, [], none, none⟩, 0, []⟩).score -
        boostOf [⟨"gst".toList, ['r'], 2, 1, ['t'], ['l']⟩]
          ((([⟨"gst portal".toList, ⟨none, none, [], none, none⟩, mkRat 1 10,
            ['c']⟩] : List VecResult).getD 0
            ⟨[], ⟨none, none, [], none, none⟩, 0, []⟩).content) := by
  refine ⟨(apply_graph_boost_frame.2 _ _).1, ?_⟩
  exact (((apply_graph_boost_frame.2 _ _).2 0 _ (by decide)).2.2.2)

/-- Dropping the last space-separated word never lengthens a string. -/
theorem dropLastWord_length_le (t : List Char) :
    (dropLastWord t).length ≤ t.length := by
  unfold dropLastWord
  by_cases h : t.contains ' '
  · simp only [h, if_pos]
    calc ((((t.reverse).dropWhile (fun c => c ≠ ' ')).drop 1).reverse).length
        = (((t.reverse).dropWhile (fun c => c ≠ ' ')).drop 1).length := by
          rw [List.length_reverse]
      _ ≤ ((t.reverse).dropWhile (fun c => c ≠ ' ')).length :=
          (List.length_drop _ _) ▸ Nat.sub_le _ _
      _ ≤ (t.reverse).length :=
          (List.dropWhile_sublist _).length_le
      _ = t.length := List.length_reverse t
  · simp only [h, if_neg]
    exact Nat.le_refl _

/-- The regex query builder never exceeds 350 characters once truncation
applies. -/
theorem buildFocusedQueryRegex_length_le (queryParts : List (List Char))
    (category : Option (List Char)) (unrestricted : Bool) :
    (buildFocusedQueryRegex queryParts category unrestricted).length ≤ 350 := by
  unfold buildFocusedQueryRegex
  set focused := joinWith (' ' :: [])
    (match category with
     | some cat => if ¬ unrestricted then categoryContext cat :: queryParts
                   else queryParts
     | none => queryParts) with hf
  by_cases h : 350 < focused.length
  · simp only [h, if_pos]
    calc (dropLastWord (focused.take 350)).length
        ≤ (focused.take 350).length := dropLastWord_length_le _
      _ ≤ 350 := by
          rw [List.length_take]
          exact Nat.min_le_left _ _
  · simp only [h, if_neg]
    exact Nat.le_of_not_lt h

/-- C6: for every input — arbitrarily long grievance text condensed on the
LLM path (strip + 350-char cut), on the regex fallback path (≤ 5 terms,
optional category phrase, word-boundary truncation to 350), or any other
string reaching the emergency truncation — the query string passed to the
external search provider has length at most the 400-character provider
ceiling; both condensing paths already stay within 350. -/
theorem web_query_length_bound (llmAvailable : Bool)
    (llmReply : Except (List Char) (List Char))
    (queryParts : List (List Char)) (category : Option (List Char))
    (unrestricted : Bool) :
    (buildFocusedQueryRegex queryParts category unrestricted).length ≤ 350 ∧
    (buildFocusedQueryWithLLM llmReply queryParts category
      unrestricted).length ≤ 350 ∧
    (∀ query : List Char, (tavilyQuerySent query).length ≤ 400) ∧
    (webQuerySent llmAvailable llmReply queryParts category
      unrestricted).length ≤ 400 := by
  have hregex := buildFocusedQueryRegex_length_le queryParts category
    unrestricted
  have hllm : (buildFocusedQueryWithLLM llmReply queryParts category
      unrestricted).length ≤ 350 := by
    unfold buildFocusedQueryWithLLM
    cases llmReply with
    | ok reply =>
      rw [List.length_take]
      exact Nat.min_le_left _ _
    | error e => exact hregex
  have hsent : ∀ query : List Char, (tavilyQuerySent query).length ≤ 400 := by
    intro query
    unfold tavilyQuerySent
    by_cases h : 400 < query.length
    · simp only [h, if_pos, List.length_append, List.length_take]
      have hmin : min 397 query.length = 397 :=
        Nat.min_eq_left (Nat.le_of_lt (Nat.lt_of_le_of_lt (by decide) h))
      have hdots : ("...".toList).length = 3 := rfl
      omega
    · simp only [h, if_neg]
      exact Nat.le_of_not_lt h
  refine ⟨hregex, hllm, hsent, hsent _⟩

/-- Elements surviving a decidable-filter step satisfy the predicate. -/
theorem score_lt_of_mem_rank_filter (l : List VecResult) (r : VecResult)
    (h : r ∈ l.filter (fun x => decide (x.score < localScoreThreshold))) :
    r.score < localScoreThreshold := by
  have := (List.mem_filter.mp h).2
  exact of_decide_eq_true this

/-- The 0.15 constant as a plain fraction. -/
theorem localScoreThreshold_eq : localScoreThreshold = 3/20 := by
  unfold localScoreThreshold
  norm_num [Rat.mkRat_eq_div]

/-- C1: every result sequence produced by `LocalRetrievalAgent.retrieve`
(for every index content, graph outcome, positive `k` and category filter)
contains only evidence scoring strictly below the 0.15 acceptance
threshold, has at most `k` elements, and is sorted ascending by
relevance score. -/
theorem local_retrieve_post (storeLoaded graphActive : Bool)
    (graphLookup : Except (List Char) (List RelatedEntry))
    (docs : List ScoredDoc) (k : Nat) (filterCategory : Option (List Char))
    (hk : 0 < k) :
    (∀ e ∈ localRetrieve storeLoaded graphActive graphLookup docs k
        filterCategory, e.relevanceScore < localScoreThreshold) ∧
    (localRetrieve storeLoaded graphActive graphLookup docs k
        filterCategory).length ≤ k ∧
    List.Pairwise (fun a b => a.relevanceScore ≤ b.relevanceScore)
      (localRetrieve storeLoaded graphActive graphLookup docs k
        filterCategory) := by
  cases storeLoaded with
  | false =>
    exact ⟨fun e he => absurd he (List.not_mem_nil e), by simp [localRetrieve],
      by simp [localRetrieve]⟩
  | true =>
    unfold localRetrieve
    set boosted := if graphActive then
        applyGraphBoost graphLookup (vectorPhase filterCategory docs)
      else vectorPhase filterCategory docs with hb
    set ranked := (boosted.insertionSort scoreOrder).filter
      (fun r => decide (r.score < localScoreThreshold)) with hr
    refine ⟨?_, ?_, ?_⟩
    · intro e he
      simp only [List.mem_map] at he
      obtain ⟨r, hrmem, hre⟩ := he
      have hrk : r ∈ ranked := List.mem_of_mem_take hrmem
      have := score_lt_of_mem_rank_filter _ _ hrk
      rw [← hre]
      exact this
    · rw [List.length_map, List.length_take]
      exact Nat.min_le_left _ _
    · have hsorted : List.Pairwise scoreOrder
          (boosted.insertionSort scoreOrder) :=
        List.sorted_insertionSort scoreOrder boosted
      have hranked : List.Pairwise scoreOrder ranked := hsorted.filter _
      have htake : List.Pairwise scoreOrder (ranked.take k) :=
        List.Pairwise.sublist (List.take_sublist k ranked) hranked
      exact List.Pairwise.map _ (fun a b hab => hab) htake

/-- Witness for C1 at concrete inputs: two documents of which only one
survives the 0.15 threshold, with `k = 1`. -/
theorem local_retrieve_post_witness :
    (∀ e ∈ localRetrieve true false (Except.ok [])
        [⟨['a'], ⟨some ['f'], none, [], none, none⟩, mkRat 1 10⟩,
         ⟨['b'], ⟨some ['g'], none, [], none, none⟩, mkRat 1 5⟩] 1 none,
      e.relevanceScore < localScoreThreshold) ∧
    (localRetrieve true false (Except.ok [])
        [⟨['a'], ⟨some ['f'], none, [], none, none⟩, mkRat 1 10⟩,
         ⟨['b'], ⟨some ['g'], none, [], none, none⟩, mkRat 1 5⟩] 1
        none).length ≤ 1 ∧
    List.Pairwise (fun a b => a.relevanceScore ≤ b.relevanceScore)
      (localRetrieve true false (Except.ok [])
        [⟨['a'], ⟨some ['f'], none, [], none, none⟩, mkRat 1 10⟩,
         ⟨['b'], ⟨some ['g'], none, [], none, none⟩, mkRat 1 5⟩] 1 none) :=
  local_retrieve_post true false (Except.ok [])
    [⟨['a'], ⟨some ['f'], none, [], none, none⟩, mkRat 1 10⟩,
     ⟨['b'], ⟨some ['g'], none, [], none, none⟩, mkRat 1 5⟩] 1 none
    (by decide)

/-- The enumerate-and-filter loop keeps at most one evidence per issue
index below the issue count. -/
theorem buildPerIssueAux_length_le (issues : List CoreIssue) :
    ∀ (analyses : List (List Char)) (idx : Nat),
      (buildPerIssueAux issues idx analyses).length ≤ issues.length - idx := by
  intro analyses
  induction analyses with
  | nil => intro idx; simp [buildPerIssueAux]
  | cons a rest ih =>
    intro idx
    unfold buildPerIssueAux
    by_cases h : stripChars a ≠ [] ∧ idx < issues.length
    · rw [if_pos h]
      have := ih (idx + 1)
      have hlt := h.2
      simp only [List.length_cons]
      omega
    · rw [if_neg h]
      have := ih (idx + 1)
      omega

/-- With an empty issue list the per-issue loop produces nothing. -/
theorem buildPerIssueAux_issues_nil :
    ∀ (analyses : List (List Char)) (idx : Nat),
      buildPerIssueAux [] idx analyses = [] := by
  intro analyses
  induction analyses with
  | nil => intro idx; rfl
  | cons a rest ih =>
    intro idx
    unfold buildPerIssueAux
    rw [if_neg]
    · exact ih (idx + 1)
    · intro h
      exact absurd h.2 (by simp)

/-- C10: `LLMReasoningAgent.retrieve` returns at most one evidence per
issue — excess split segments are dropped by the index guard and the
combined-fallback item only appears when no per-issue item was produced —
and returns the empty sequence, independently of any model outcome, when
the issue list is empty or the model client is unavailable. -/
theorem llm_retrieve_bounds (clientAvailable : Bool) (issues : List CoreIssue)
    (ents : List ExtractedEntity)
    (resp : Except (List Char) (Option (List Char))) :
    (llmRetrieve clientAvailable issues ents resp).length ≤ issues.length ∧
    (clientAvailable = false →
      llmRetrieve clientAvailable issues ents resp = []) ∧
    (issues = [] → llmRetrieve clientAvailable issues ents resp = []) ∧
    (∀ text, clientAvailable = true → resp = Except.ok (some text) →
      buildPerIssueAux issues 0
        (splitCombinedAnalysis (stripChars text) issues.length) ≠ [] →
      llmRetrieve clientAvailable issues ents resp =
        buildPerIssueAux issues 0
          (splitCombinedAnalysis (stripChars text) issues.length)) := by
  cases clientAvailable with
  | false =>
    refine ⟨?_, ?_, ?_, ?_⟩
    · simp [llmRetrieve]
    · intro _; rfl
    · intro _; rfl
    · intro text hc
      exact absurd hc (by simp)
  | true =>
    by_cases hiss : issues = []
    · subst hiss
      refine ⟨?_, ?_, ?_, ?_⟩
      · simp [llmRetrieve]
      · intro h; exact absurd h (by simp)
      · intro _; rfl
      · intro text _ _ hne
        exact absurd (buildPerIssueAux_issues_nil _ 0) hne
    · cases resp with
      | error e =>
        refine ⟨?_, ?_, ?_, ?_⟩
        · simp [llmRetrieve, hiss]
        · intro h; exact absurd h (by simp)
        · intro h; exact absurd h hiss
        · intro text _ hresp
          cases hresp
      | ok o =>
        cases o with
        | none =>
          refine ⟨?_, ?_, ?_, ?_⟩
          · simp [llmRetrieve, hiss]
          · intro h; exact absurd h (by simp)
          · intro h; exact absurd h hiss
          · intro text _ hresp
            cases hresp
        | some text =>
          have hunf : llmRetrieve true issues ents (Except.ok (some text)) =
              (if buildPerIssueAux issues 0
                    (splitCombinedAnalysis (stripChars text) issues.length)
                    = [] ∧ stripChars (stripChars text) ≠ [] then
                 [combinedEvidence issues (stripChars text)]
               else
                 buildPerIssueAux issues 0
                   (splitCombinedAnalysis (stripChars text)
                     issues.length)) := by
            simp [llmRetrieve, hiss]
          by_cases hc : buildPerIssueAux issues 0
              (splitCombinedAnalysis (stripChars text) issues.length) = [] ∧
              stripChars (stripChars text) ≠ []
          · rw [hunf, if_pos hc]
            refine ⟨?_, ?_, ?_, ?_⟩
            · simp only [List.length_cons, List.length_nil]
              have : 0 < issues.length := List.length_pos.mpr hiss
              omega
            · intro h; exact absurd h (by simp)
            · intro h; exact absurd h hiss
            · intro t _ hresp hne
              cases hresp
              exact absurd hc.1 hne
          · rw [hunf, if_neg hc]
            refine ⟨?_, ?_, ?_, ?_⟩
            · have := buildPerIssueAux_length_le issues
                (splitCombinedAnalysis (stripChars text) issues.length) 0
              omega
            · intro h; exact absurd h (by simp)
            · intro h; exact absurd h hiss
            · intro t _ hresp _
              cases hresp
              rfl

/-- Witness for C10 at concrete inputs: an unavailable client, an empty
issue list, and a one-issue call whose 60-character model reply splits into
a single per-issue evidence. -/
theorem llm_retrieve_bounds_witness :
    llmRetrieve false [] [] (Except.error []) = [] ∧
    llmRetrieve true [] [] (Except.ok none) = [] ∧
    llmRetrieve true [⟨['t'], [], 1⟩] []
        (Except.ok (some (List.replicate 60 'x'))) =
      buildPerIssueAux [⟨['t'], [], 1⟩] 0
        (splitCombinedAnalysis (stripChars (List.replicate 60 'x')) 1) :=
  ⟨(llm_retrieve_bounds false [] [] (Except.error [])).2.1 rfl,
   (llm_retrieve_bounds true [] [] (Except.ok none)).2.2.1 rfl,
   (llm_retrieve_bounds true [⟨['t'], [], 1⟩] []
      (Except.ok (some (List.replicate 60 'x')))).2.2.2
     (List.replicate 60 'x') rfl rfl (by decide)⟩

/-- Joining a non-empty list of parts starts with the first part. -/
theorem joinWith_cons (sep : List Char) (x : List Char)
    (xs : List (List Char)) : ∃ t, joinWith sep (x :: xs) = x ++ t := by
  cases xs with
  | nil => exact ⟨[], by simp [joinWith, List.intercalate]⟩
  | cons y ys =>
    refine ⟨sep ++ joinWith sep (y :: ys), ?_⟩
    simp [joinWith, List.intercalate, List.intersperse]

/-- Joining a list whose first part is non-empty yields a non-empty
string. -/
theorem joinWith_ne_nil (sep : List Char) (x : List Char)
    (xs : List (List Char)) (hx : x ≠ []) : joinWith sep (x :: xs) ≠ [] := by
  obtain ⟨t, ht⟩ := joinWith_cons sep x xs
  rw [ht]
  intro h
  exact hx (List.append_eq_nil.mp h).1

/-- Per-issue evidence always carries non-empty content (the formatted
header lines are constants). -/
theorem perIssueEvidence_content_ne_nil (issues : List CoreIssue) (idx : Nat)
    (analysis : List Char) :
    (perIssueEvidence issues idx analysis).content ≠ [] := by
  simp only [perIssueEvidence]
  apply joinWith_ne_nil
  intro h
  have h1 := (List.append_eq_nil.mp h).1
  have h2 := (List.append_eq_nil.mp h1).1
  have h3 := (List.append_eq_nil.mp h2).1
  exact absurd h3 (by decide)

/-- Combined-fallback evidence always carries non-empty content. -/
theorem combinedEvidence_content_ne_nil (issues : List CoreIssue)
    (combined : List Char) :
    (combinedEvidence issues combined).content ≠ [] := by
  simp only [combinedEvidence]
  cases issues with
  | nil =>
    simp only [combinedIssueParts, List.nil_append]
    apply joinWith_ne_nil
    decide
  | cons issue rest =>
    simp only [combinedIssueParts, List.cons_append]
    apply joinWith_ne_nil
    intro h
    have h1 := (List.append_eq_nil.mp h).1
    have h2 := (List.append_eq_nil.mp h1).1
    have h3 := (List.append_eq_nil.mp h2).1
    exact absurd h3 (by decide)

/-- Every element the enumerate-and-filter loop emits is a per-issue
evidence record. -/
theorem mem_buildPerIssueAux (issues : List CoreIssue) :
    ∀ (analyses : List (List Char)) (idx : Nat) (e : RetrievalSource),
      e ∈ buildPerIssueAux issues idx analyses →
      ∃ j a, e = perIssueEvidence issues j a := by
  intro analyses
  induction analyses with
  | nil => intro idx e he; exact absurd he (List.not_mem_nil e)
  | cons a rest ih =>
    intro idx e he
    unfold buildPerIssueAux at he
    by_cases h : stripChars a ≠ [] ∧ idx < issues.length
    · rw [if_pos h] at he
      rcases List.mem_cons.mp he with h1 | h2
      · exact ⟨idx, a, h1⟩
      · exact ih (idx + 1) e h2
    · rw [if_neg h] at he
      exact ih (idx + 1) e he

/-- Counterexample to C8: a provider row with an empty content string and a
passing score (0.6 > 0.5) is mapped into the bundle by the web retriever —
evidence with empty content is *not* dropped. -/
theorem web_empty_content_counterexample :
    (tavilyResults [⟨some [], some ['u'], some (mkRat 3 5), none⟩]).length = 1 ∧
    ((tavilyResults [⟨some [], some ['u'], some (mkRat 3 5), none⟩]).getD 0
        ⟨[], [], [], 0, none⟩).content = [] := by
  constructor
  · decide
  · decide

/-- C8 (amended): only the reasoning retriever guarantees non-empty
content (its formatted wrapper is never empty); the web retriever copies
the provider's content field verbatim into the bundle — filtering only on
score — so empty-content evidence passes through. -/
theorem evidence_content_policy :
    (∀ (clientAvailable : Bool) (issues : List CoreIssue)
        (ents : List ExtractedEntity)
        (resp : Except (List Char) (Option (List Char))),
      ∀ e ∈ llmRetrieve clientAvailable issues ents resp, e.content ≠ []) ∧
    (∀ response : List TavilyResult, ∀ e ∈ tavilyResults response,
      ∃ r ∈ response, (webScoreThreshold < r.score.getD 0) ∧
        e.content = r.content.getD [] ∧
        e.relevanceScore = r.score.getD 0) := by
  constructor
  · intro clientAvailable issues ents resp e he
    cases clientAvailable with
    | false =>
      rw [show llmRetrieve false issues ents resp = [] from rfl] at he
      exact absurd he (List.not_mem_nil e)
    | true =>
      by_cases hiss : issues = []
      · subst hiss
        simp [llmRetrieve] at he
      · cases resp with
        | error err => simp [llmRetrieve, hiss] at he
        | ok o =>
          cases o with
          | none => simp [llmRetrieve, hiss] at he
          | some text =>
            have hunf : llmRetrieve true issues ents
                (Except.ok (some text)) =
                (if buildPerIssueAux issues 0
                      (splitCombinedAnalysis (stripChars text) issues.length)
                      = [] ∧ stripChars (stripChars text) ≠ [] then
                   [combinedEvidence issues (stripChars text)]
                 else
                   buildPerIssueAux issues 0
                     (splitCombinedAnalysis (stripChars text)
                       issues.length)) := by
              simp [llmRetrieve, hiss]
            rw [hunf] at he
            by_cases hc : buildPerIssueAux issues 0
                (splitCombinedAnalysis (stripChars text) issues.length) = [] ∧
                stripChars (stripChars text) ≠ []
            · rw [if_pos hc] at he
              rcases List.mem_cons.mp he with h1 | h2
              · rw [h1]
                exact combinedEvidence_content_ne_nil _ _
              · exact absurd h2 (List.not_mem_nil e)
            · rw [if_neg hc] at he
              obtain ⟨j, a, hja⟩ := mem_buildPerIssueAux issues _ 0 e he
              rw [hja]
              exact perIssueEvidence_content_ne_nil _ _ _
  · intro response e he
    unfold tavilyResults at he
    rcases List.mem_map.mp he with ⟨r, hrmem, hre⟩
    have hfil := List.mem_filter.mp hrmem
    refine ⟨r, hfil.1, of_decide_eq_true hfil.2, ?_, ?_⟩
    · rw [← hre]
    · rw [← hre]

/-- Witness for the amended C8 at concrete inputs: a one-issue reasoning
call whose single evidence has non-empty content, and the web pass-through
of an empty content field. -/
theorem evidence_content_policy_witness :
    (∀ e ∈ llmRetrieve true [⟨['t'], [], 1⟩] []
        (Except.ok (some (List.replicate 60 'x'))), e.content ≠ []) ∧
    (∃ r ∈ [(⟨some [], some ['u'], some (mkRat 3 5), none⟩ : TavilyResult)],
      (webScoreThreshold < r.score.getD 0) ∧
      (((tavilyResults [⟨some [], some ['u'], some (mkRat 3 5), none⟩]).getD 0
          ⟨[], [], [], 0, none⟩).content = r.content.getD []) ∧
      (((tavilyResults [⟨some [], some ['u'], some (mkRat 3 5), none⟩]).getD 0
          ⟨[], [], [], 0, none⟩).relevanceScore = r.score.getD 0)) :=
  ⟨fun e he => evidence_content_policy.1 true [⟨['t'], [], 1⟩] []
      (Except.ok (some (List.replicate 60 'x'))) e he,
   evidence_content_policy.2 [⟨some [], some ['u'], some (mkRat 3 5), none⟩]
     ((tavilyResults [⟨some [], some ['u'], some (mkRat 3 5), none⟩]).getD 0
        ⟨[], [], [], 0, none⟩)
     (by decide)⟩

/-- The neighbor loop preserves the BFS invariant: the seed stays visited,
and no collected entry names the seed (new entries name unvisited
neighbors, and the seed is visited). -/
theorem procNeighbors_inv (g : KGraph) (mr : Nat) (node : List Char)
    (depth : Nat) (seed : List Char) :
    ∀ (nbs visited : List (List Char)) (related : List RelatedEntry)
      (nextLevel : List (List Char × Nat)),
      seed ∈ visited → (∀ e ∈ related, e.entity ≠ seed) →
      seed ∈ (procNeighbors g mr node depth nbs visited related nextLevel).1 ∧
      ∀ e ∈ (procNeighbors g mr node depth nbs visited related nextLevel).2.1,
        e.entity ≠ seed := by
  intro nbs
  induction nbs with
  | nil => intro visited related nextLevel hv hr; exact ⟨hv, hr⟩
  | cons nb rest ih =>
    intro visited related nextLevel hv hr
    unfold procNeighbors
    by_cases hc : nb ∈ visited
    · rw [if_pos hc]
      exact ih visited related nextLevel hv hr
    · rw [if_neg hc]
      have hnbne : nb ≠ seed := fun heq => hc (heq ▸ hv)
      have hr' : ∀ e ∈ related ++ [mkRelated g node nb depth],
          e.entity ≠ seed := by
        intro e he
        rcases List.mem_append.mp he with h1 | h2
        · exact hr e h1
        · rw [List.mem_singleton.mp h2]
          exact hnbne
      by_cases hcap : mr ≤ (related ++ [mkRelated g node nb depth]).length
      · rw [if_pos hcap]
        exact ⟨List.mem_cons_of_mem nb hv, hr'⟩
      · rw [if_neg hcap]
        exact ih (nb :: visited) _ _ (List.mem_cons_of_mem nb hv) hr'

/-- The level loop preserves the BFS invariant. -/
theorem procLevel_inv (g : KGraph) (maxDepth maxResults : Nat)
    (seed : List Char) :
    ∀ (level : List (List Char × Nat)) (visited : List (List Char))
      (related : List RelatedEntry) (nextLevel : List (List Char × Nat)),
      seed ∈ visited → (∀ e ∈ related, e.entity ≠ seed) →
      seed ∈ (procLevel g maxDepth maxResults level visited related
        nextLevel).1 ∧
      ∀ e ∈ (procLevel g maxDepth maxResults level visited related
        nextLevel).2.1, e.entity ≠ seed := by
  intro level
  induction level with
  | nil => intro visited related nextLevel hv hr; exact ⟨hv, hr⟩
  | cons nd rest ih =>
    intro visited related nextLevel hv hr
    obtain ⟨node, depth⟩ := nd
    unfold procLevel
    by_cases hd : maxDepth ≤ depth
    · rw [if_pos hd]
      exact ih visited related nextLevel hv hr
    · rw [if_neg hd]
      have hstep := procNeighbors_inv g maxResults node depth seed
        (neighborsOf g node) visited related nextLevel hv hr
      exact ih _ _ _ hstep.1 hstep.2

/-- The while loop preserves the BFS invariant. -/
theorem bfsLoop_inv (g : KGraph) (maxDepth maxResults : Nat)
    (seed : List Char) :
    ∀ (fuel : Nat) (level : List (List Char × Nat))
      (visited : List (List Char)) (related : List RelatedEntry),
      seed ∈ visited → (∀ e ∈ related, e.entity ≠ seed) →
      ∀ e ∈ bfsLoop g maxDepth maxResults fuel level visited related,
        e.entity ≠ seed := by
  intro fuel
  induction fuel with
  | zero => intro level visited related hv hr; exact hr
  | succ f ih =>
    intro level visited related hv hr
    unfold bfsLoop
    by_cases hstop : level = [] ∨ maxResults ≤ related.length
    · rw [if_pos hstop]
      exact hr
    · rw [if_neg hstop]
      have hstep := procLevel_inv g maxDepth maxResults seed level visited
        related [] hv hr
      exact ih _ _ _ hstep.1 hstep.2

/-- C4: `find_related` returns the empty sequence (not an error) when the
seed is absent from the graph; its results never contain the seed itself;
it returns at most `max_results` entries; and the result is ordered by
descending weight with ties broken by ascending depth. -/
theorem find_related_post (g : KGraph) (seed : List Char)
    (maxDepth maxResults : Nat) :
    (memGraph g seed = false →
      findRelated g seed maxDepth maxResults = []) ∧
    (∀ e ∈ findRelated g seed maxDepth maxResults, e.entity ≠ seed) ∧
    (findRelated g seed maxDepth maxResults).length ≤ maxResults ∧
    List.Pairwise
      (fun a b => b.weight < a.weight ∨
        (a.weight = b.weight ∧ a.depth ≤ b.depth))
      (findRelated g seed maxDepth maxResults) := by
  cases hmem : memGraph g seed with
  | false =>
    refine ⟨fun _ => ?_, ?_, ?_, ?_⟩ <;> simp [findRelated, hmem]
  | true =>
    refine ⟨?_, ?_, ?_, ?_⟩
    · intro hcontra
      exact absurd hcontra (by decide)
    · intro e he
      have hunf : findRelated g seed maxDepth maxResults =
          ((bfsLoop g maxDepth maxResults (maxDepth + 2) [(seed, 0)] [seed]
            []).insertionSort relatedOrder).take maxResults := by
        unfold findRelated
        rw [hmem]
      rw [hunf] at he
      have h1 : e ∈ (bfsLoop g maxDepth maxResults (maxDepth + 2) [(seed, 0)]
          [seed] []).insertionSort relatedOrder :=
        (List.take_sublist _ _).subset he
      have h2 : e ∈ bfsLoop g maxDepth maxResults (maxDepth + 2) [(seed, 0)]
          [seed] [] :=
        (List.perm_insertionSort relatedOrder _).mem_iff.mp h1
      exact bfsLoop_inv g maxDepth maxResults seed _ _ _ _
        (List.mem_singleton_self seed) (fun e he => absurd he
          (List.not_mem_nil e)) e h2
    · have hunf : findRelated g seed maxDepth maxResults =
          ((bfsLoop g maxDepth maxResults (maxDepth + 2) [(seed, 0)] [seed]
            []).insertionSort relatedOrder).take maxResults := by
        unfold findRelated
        rw [hmem]
      rw [hunf, List.length_take]
      exact Nat.min_le_left _ _
    · have hunf : findRelated g seed maxDepth maxResults =
          ((bfsLoop g maxDepth maxResults (maxDepth + 2) [(seed, 0)] [seed]
            []).insertionSort relatedOrder).take maxResults := by
        unfold findRelated
        rw [hmem]
      rw [hunf]
      have hsorted : List.Pairwise relatedOrder
          ((bfsLoop g maxDepth maxResults (maxDepth + 2) [(seed, 0)] [seed]
            []).insertionSort relatedOrder) :=
        List.sorted_insertionSort relatedOrder _
      exact List.Pairwise.sublist (List.take_sublist _ _) hsorted

/-- Witness for C4 at concrete inputs: an absent seed on the empty graph,
and a one-edge graph where the single result names the neighbor, not the
seed. -/
theorem find_related_post_witness :
    findRelated ⟨[], []⟩ ("GST".toList) 2 5 = [] ∧
    (⟨"GSTR-1".toList, "related".toList, 2, 1, "unknown".toList,
        "GSTR-1".toList⟩ : RelatedEntry).entity ≠ "GST".toList :=
  ⟨(find_related_post ⟨[], []⟩ ("GST".toList) 2 5).1 (by decide),
   (find_related_post
      ⟨[], [⟨"GST".toList, "GSTR-1".toList, "related".toList, 2⟩]⟩
      ("GST".toList) 2 5).2.1
     ⟨"GSTR-1".toList, "related".toList, 2, 1, "unknown".toList,
        "GSTR-1".toList⟩ (by decide)⟩

/-! ## C5: behaviour of the split cascade on correctly marked responses -/

/-- The marker `Issue #n:` preceding the `n`-th analysis in a correctly
marked model response. -/
def markerChars (n : Nat) : List Char :=
  'I' :: 's' :: 's' :: 'u' :: 'e' :: ' ' :: '#' :: (natChars n ++ ':' :: [])

/-- A correctly marked batched response: each per-issue segment preceded by
its `Issue #i:` marker, numbered from `i`. -/
def renderMarked : Nat → List (List Char) → List Char
  | _, [] => []
  | i, s :: ss => markerChars i ++ (s ++ renderMarked (i + 1) ss)

/-- Every digit character is a digit. -/
theorem digitChar_isDig (d : Nat) : isDig (digitChar d) = true := by
  unfold digitChar
  split_ifs <;> decide

/-- The digit accumulator prepends a non-empty all-digit block. -/
theorem natCharsAux_spec :
    ∀ (fuel n : Nat) (acc : List Char),
      ∃ t, natCharsAux fuel n acc = t ++ acc ∧ ∀ c ∈ t, isDig c = true := by
  intro fuel
  induction fuel with
  | zero => intro n acc; exact ⟨[], rfl, fun c hc => absurd hc
      (List.not_mem_nil c)⟩
  | succ f ih =>
    intro n acc
    unfold natCharsAux
    by_cases h : n < 10
    · rw [if_pos h]
      refine ⟨[digitChar n], rfl, ?_⟩
      intro c hc
      rw [List.mem_singleton.mp hc]
      exact digitChar_isDig n
    · rw [if_neg h]
      obtain ⟨t, ht, hdig⟩ := ih (n / 10) (digitChar (n % 10) :: acc)
      refine ⟨t ++ [digitChar (n % 10)], ?_, ?_⟩
      · rw [ht, List.append_assoc]
        rfl
      · intro c hc
        rcases List.mem_append.mp hc with h1 | h2
        · exact hdig c h1
        · rw [List.mem_singleton.mp h2]
          exact digitChar_isDig (n % 10)

/-- `natChars` is non-empty and consists of digits. -/
theorem natChars_spec (n : Nat) :
    natChars n ≠ [] ∧ ∀ c ∈ natChars n, isDig c = true := by
  unfold natChars natCharsAux
  by_cases h : n < 10
  · rw [if_pos h]
    exact ⟨by simp, fun c hc => by
      rw [List.mem_singleton.mp hc]; exact digitChar_isDig n⟩
  · rw [if_neg h]
    obtain ⟨t, ht, hdig⟩ := natCharsAux_spec n (n / 10)
      (digitChar (n % 10) :: [])
    rw [ht]
    refine ⟨by simp, ?_⟩
    intro c hc
    rcases List.mem_append.mp hc with h1 | h2
    · exact hdig c h1
    · rw [List.mem_singleton.mp h2]
      exact digitChar_isDig (n % 10)

/-- Dropping a satisfied block: `dropWhile` passes over a prefix whose
elements all satisfy the predicate. -/
theorem dropWhile_append_all {p : Char → Bool} :
    ∀ (l r : List Char), (∀ c ∈ l, p c = true) →
      (l ++ r).dropWhile p = r.dropWhile p := by
  intro l
  induction l with
  | nil => intro r _; rfl
  | cons c t ih =>
    intro r hall
    have hc : p c = true := hall c (List.mem_cons_self c t)
    rw [List.cons_append, List.dropWhile_cons, if_pos hc]
    exact ih r (fun x hx => hall x (List.mem_cons_of_mem c hx))

/-- The primary pattern `Issue\s*#\d+\s*:` consumes exactly an inserted
marker. -/
theorem matchP1_marker (n : Nat) (tail : List Char) :
    matchP1 (markerChars n ++ tail) = some tail := by
  obtain ⟨hne, hdig⟩ := natChars_spec n
  obtain ⟨d, ds, hds⟩ : ∃ d ds, natChars n = d :: ds := by
    cases hnc : natChars n with
    | nil => exact absurd hnc hne
    | cons d ds => exact ⟨d, ds, rfl⟩
  have hstep1 : matchLitCI issueCI (markerChars n ++ tail) =
      some (' ' :: '#' :: (natChars n ++ ':' :: []) ++ tail) := rfl
  have hstep2 : (' ' :: '#' :: (natChars n ++ ':' :: []) ++ tail).dropWhile
      isPyWs = '#' :: (natChars n ++ ':' :: []) ++ tail := rfl
  have hstep3 : matchOne (fun c => c = '#')
      ('#' :: (natChars n ++ ':' :: []) ++ tail) =
      some ((natChars n ++ ':' :: []) ++ tail) := rfl
  have hstep4 : matchMany1 isDig ((natChars n ++ ':' :: []) ++ tail) =
      some (':' :: tail) := by
    have hd : isDig d = true := hdig d (hds ▸ List.mem_cons_self d ds)
    have hall : ∀ c ∈ ds, isDig c = true := fun c hc =>
      hdig c (hds ▸ List.mem_cons_of_mem d hc)
    rw [hds]
    simp only [List.cons_append, List.append_assoc, List.nil_append]
    rw [show matchMany1 isDig (d :: (ds ++ ':' :: tail)) =
        (if isDig d = true then some ((ds ++ ':' :: tail).dropWhile isDig)
         else none) from rfl]
    rw [if_pos hd, dropWhile_append_all ds (':' :: tail) hall]
    rfl
  have hstep5 : matchOne (fun c => c = ':') ((':' :: tail).dropWhile isPyWs)
      = some tail := rfl
  unfold matchP1
  rw [hstep1]
  simp only [Option.bind_eq_bind, Option.some_bind]
  rw [hstep2, hstep3]
  simp only [Option.some_bind]
  rw [hstep4]
  simp only [Option.some_bind]
  exact hstep5

/-- A successful case-insensitive literal match means the input starts with
the literal. -/
theorem startsWithCI_of_matchLitCI :
    ∀ (p cs r : List Char), matchLitCI p cs = some r →
      startsWithCI p cs = true := by
  intro p
  induction p with
  | nil => intro cs r _; rfl
  | cons p ps ih =>
    intro cs r h
    cases cs with
    | nil => cases h
    | cons c cs' =>
      unfold matchLitCI at h
      by_cases hc : p.toLower = c.toLower
      · rw [if_pos hc] at h
        unfold startsWithCI
        rw [ih cs' r h]
        simp [hc]
      · rw [if_neg hc] at h
        cases h

/-- A successful primary-pattern match means the input starts with
`issue` (case-insensitively). -/
theorem startsWithCI_of_matchP1 (cs r : List Char)
    (h : matchP1 cs = some r) : startsWithCI issueCI cs = true := by
  unfold matchP1 at h
  cases hlit : matchLitCI issueCI cs with
  | none =>
    rw [hlit] at h
    cases h
  | some a => exact startsWithCI_of_matchLitCI issueCI cs a hlit

/-- A pattern no longer than the left part only looks at the left part. -/
theorem startsWithCI_append_left :
    ∀ (p t r : List Char), p.length ≤ t.length →
      startsWithCI p (t ++ r) = startsWithCI p t := by
  intro p
  induction p with
  | nil => intro t r _; rfl
  | cons p ps ih =>
    intro t r h
    cases t with
    | nil => exact absurd h (by simp)
    | cons c t' =>
      simp only [List.cons_append]
      unfold startsWithCI
      rw [ih t' r (Nat.le_of_succ_le_succ h)]

/-- A pattern longer than the input never matches at the front. -/
theorem startsWithCI_false_of_short :
    ∀ (p cs : List Char), cs.length < p.length →
      startsWithCI p cs = false := by
  intro p
  induction p with
  | nil => intro cs h; exact absurd h (by simp)
  | cons p ps ih =>
    intro cs h
    cases cs with
    | nil => rfl
    | cons c cs' =>
      unfold startsWithCI
      rw [ih cs' (Nat.lt_of_succ_lt_succ h)]
      simp

/-- A front-match at any suffix is an occurrence. -/
theorem hasSubCI_of_suffix (p : List Char) :
    ∀ (s t : List Char), t <:+ s → startsWithCI p t = true →
      hasSubCI p s = true := by
  intro s
  induction s with
  | nil =>
    intro t hsuf h
    rw [List.suffix_nil.mp hsuf] at h
    exact h
  | cons c s' ih =>
    intro t hsuf h
    rcases List.suffix_cons_iff.mp hsuf with h1 | h2
    · unfold hasSubCI
      rw [← h1, h]
      rfl
    · unfold hasSubCI
      rw [ih t h2 h]
      simp

/-- No occurrence of `issue` can straddle the boundary between a short
segment tail and a following marker (which begins with `I`): the letters
`s`, `s`, `u`, `e` never match `I`. -/
theorem startsWithCI_issue_span_false :
    ∀ (t : List Char), t.length < 5 → t ≠ [] →
      ∀ r', startsWithCI issueCI (t ++ 'I' :: r') = false := by
  intro t h1 h2 r'
  cases t with
  | nil => exact absurd rfl h2
  | cons a t1 =>
    cases t1 with
    | nil =>
      have hb : decide ('s'.toLower = 'I'.toLower) = false := by decide
      simp only [startsWithCI, issueCI, List.cons_append, List.nil_append, hb]
      simp
    | cons b t2 =>
      cases t2 with
      | nil =>
        have hb : decide ('s'.toLower = 'I'.toLower) = false := by decide
        simp only [startsWithCI, issueCI, List.cons_append, List.nil_append,
          hb]
        simp
      | cons c t3 =>
        cases t3 with
        | nil =>
          have hb : decide ('u'.toLower = 'I'.toLower) = false := by decide
          simp only [startsWithCI, issueCI, List.cons_append,
            List.nil_append, hb]
          simp
        | cons d t4 =>
          cases t4 with
          | nil =>
            have hb : decide ('e'.toLower = 'I'.toLower) = false := by decide
            simp only [startsWithCI, issueCI, List.cons_append,
              List.nil_append, hb]
            simp
          | cons e t5 =>
            exfalso
            simp only [List.length_cons] at h1
            omega

/-- Inside a segment free of `issue`, the primary pattern never matches —
not even across the boundary into the next marker. -/
theorem matchP1_none_within (s rest : List Char)
    (hs : hasSubCI issueCI s = false)
    (hrest : rest = [] ∨ ∃ r', rest = 'I' :: r') :
    ∀ t, t <:+ s → t ≠ [] → matchP1 (t ++ rest) = none := by
  intro t hsuf htne
  cases hm : matchP1 (t ++ rest) with
  | none => rfl
  | some r =>
    exfalso
    have hsw : startsWithCI issueCI (t ++ rest) = true :=
      startsWithCI_of_matchP1 _ _ hm
    by_cases hlen : 5 ≤ t.length
    · rw [startsWithCI_append_left issueCI t rest
        (by simpa [issueCI] using hlen)] at hsw
      have hocc := hasSubCI_of_suffix issueCI s t hsuf hsw
      rw [hs] at hocc
      exact absurd hocc (by decide)
    · push_neg at hlen
      rcases hrest with hr | ⟨r', hr⟩
      · subst hr
        rw [List.append_nil] at hsw
        have hshort := startsWithCI_false_of_short issueCI t
          (by simp only [issueCI, List.length_cons, List.length_nil]; omega)
        rw [hshort] at hsw
        exact absurd hsw (by decide)
      · subst hr
        have hspan := startsWithCI_issue_span_false t hlen htne r'
        rw [hspan] at hsw
        exact absurd hsw (by decide)

/-- The scanner closes the final segment at the end of input. -/
theorem splitByAux_nil (m : List Char → Option (List Char)) (fuel : Nat)
    (acc : List Char) : splitByAux m fuel [] acc = [acc.reverse] := by
  cases fuel <;> rfl

/-- One scanner step without a match: shift one character into the
accumulator. -/
theorem splitByAux_step_none (m : List Char → Option (List Char)) (f : Nat)
    (c : Char) (cs acc : List Char) (hm : m (c :: cs) = none) :
    splitByAux m (f + 1) (c :: cs) acc = splitByAux m f cs (c :: acc) := by
  conv_lhs => rw [show splitByAux m (f + 1) (c :: cs) acc =
    (match m (c :: cs) with
     | some rest =>
       if rest.length ≤ cs.length then acc.reverse :: splitByAux m f rest []
       else splitByAux m f cs (c :: acc)
     | none => splitByAux m f cs (c :: acc)) from rfl]
  rw [hm]

/-- One scanner step with a match: close the current segment and continue
after the matched text. -/
theorem splitByAux_step_some (m : List Char → Option (List Char)) (f : Nat)
    (c : Char) (cs acc rest : List Char) (hm : m (c :: cs) = some rest)
    (hl : rest.length ≤ cs.length) :
    splitByAux m (f + 1) (c :: cs) acc =
      acc.reverse :: splitByAux m f rest [] := by
  conv_lhs => rw [show splitByAux m (f + 1) (c :: cs) acc =
    (match m (c :: cs) with
     | some rest =>
       if rest.length ≤ cs.length then acc.reverse :: splitByAux m f rest []
       else splitByAux m f cs (c :: acc)
     | none => splitByAux m f cs (c :: acc)) from rfl]
  rw [hm]
  show (if rest.length ≤ cs.length then acc.reverse :: splitByAux m f rest []
        else splitByAux m f cs (c :: acc)) = acc.reverse :: splitByAux m f rest []
  rw [if_pos hl]

/-- Scanning across a block where the matcher never fires just moves the
block into the accumulator. -/
theorem splitByAux_skip (m : List Char → Option (List Char)) :
    ∀ (s rest acc : List Char) (fuel : Nat),
      (s ++ rest).length ≤ fuel →
      (∀ t, t <:+ s → t ≠ [] → m (t ++ rest) = none) →
      splitByAux m fuel (s ++ rest) acc =
        splitByAux m (fuel - s.length) rest (s.reverse ++ acc) := by
  intro s
  induction s with
  | nil => intro rest acc fuel _ _; simp
  | cons c s' ih =>
    intro rest acc fuel hfuel hnone
    have hlen : (c :: s' ++ rest).length = s'.length + rest.length + 1 := by
      simp only [List.cons_append, List.length_cons, List.length_append]
    obtain ⟨f, rfl⟩ : ∃ f, fuel = f + 1 := by
      refine ⟨fuel - 1, ?_⟩
      rw [hlen] at hfuel
      omega
    have hm : m (c :: (s' ++ rest)) = none := by
      have := hnone (c :: s') (List.suffix_refl _) (by simp)
      rwa [List.cons_append] at this
    rw [List.cons_append, splitByAux_step_none m f c (s' ++ rest) acc hm]
    have hnone' : ∀ t, t <:+ s' → t ≠ [] → m (t ++ rest) = none := by
      intro t hsuf htne
      exact hnone t (hsuf.trans (List.suffix_cons c s')) htne
    rw [ih rest (c :: acc) f
      (by
        rw [hlen] at hfuel
        simp only [List.length_append]
        omega)
      hnone']
    have hacc : s'.reverse ++ (c :: acc) = (c :: s').reverse ++ acc := by
      rw [List.reverse_cons, List.append_assoc]
      rfl
    rw [hacc]
    have hfarith : f - s'.length = f + 1 - (c :: s').length := by
      simp only [List.length_cons]
      omega
    rw [hfarith]

/-- A correctly marked rendering splits into the empty pre-marker segment
followed by exactly the original segments, provided no segment contains
`issue`. -/
theorem splitByAux_renderMarked :
    ∀ (segs : List (List Char)) (i : Nat) (acc : List Char) (fuel : Nat),
      segs ≠ [] →
      (∀ s ∈ segs, hasSubCI issueCI s = false) →
      (renderMarked i segs).length ≤ fuel →
      splitByAux matchP1 fuel (renderMarked i segs) acc =
        acc.reverse :: segs := by
  intro segs
  induction segs with
  | nil => intro i acc fuel h _ _; exact absurd rfl h
  | cons s ss ih =>
    intro i acc fuel _ hno hfuel
    have hmk : markerChars i = 'I' ::
        ('s' :: 's' :: 'u' :: 'e' :: ' ' :: '#' :: (natChars i ++ ':' :: []))
      := rfl
    set mt := 's' :: 's' :: 'u' :: 'e' :: ' ' :: '#' ::
      (natChars i ++ ':' :: []) with hmt
    have hrender : renderMarked i (s :: ss) =
        'I' :: (mt ++ (s ++ renderMarked (i + 1) ss)) := by
      show markerChars i ++ (s ++ renderMarked (i + 1) ss) = _
      rw [hmk]
      rfl
    have hlen1 : 1 ≤ (renderMarked i (s :: ss)).length := by
      rw [hrender]
      simp
    obtain ⟨f, rfl⟩ : ∃ f, fuel = f + 1 :=
      ⟨fuel - 1, by omega⟩
    have hm : matchP1 ('I' :: (mt ++ (s ++ renderMarked (i + 1) ss))) =
        some (s ++ renderMarked (i + 1) ss) := by
      have := matchP1_marker i (s ++ renderMarked (i + 1) ss)
      rwa [hmk, List.cons_append] at this
    rw [hrender, splitByAux_step_some matchP1 f 'I' _ acc _ hm
      (by simp [List.length_append])]
    have hnos : hasSubCI issueCI s = false := hno s (List.mem_cons_self s ss)
    have hrest : renderMarked (i + 1) ss = [] ∨
        ∃ r', renderMarked (i + 1) ss = 'I' :: r' := by
      cases ss with
      | nil => exact Or.inl rfl
      | cons s2 ss2 =>
        refine Or.inr ⟨('s' :: 's' :: 'u' :: 'e' :: ' ' :: '#' ::
          (natChars (i + 1) ++ ':' :: [])) ++
          (s2 ++ renderMarked (i + 2) ss2), ?_⟩
        show markerChars (i + 1) ++ (s2 ++ renderMarked (i + 2) ss2) = _
        rfl
    have hfuelskip : (s ++ renderMarked (i + 1) ss).length ≤ f := by
      rw [hrender] at hfuel
      simp only [List.length_cons, List.length_append] at hfuel ⊢
      omega
    rw [splitByAux_skip matchP1 s (renderMarked (i + 1) ss) [] f hfuelskip
      (matchP1_none_within s (renderMarked (i + 1) ss) hnos hrest)]
    cases ss with
    | nil =>
      rw [show renderMarked (i + 1) ([] : List (List Char)) = [] from rfl,
        splitByAux_nil]
      simp
    | cons s2 ss2 =>
      rw [ih (i + 1) (s.reverse ++ []) (f - s.length) (by simp)
        (fun x hx => hno x (List.mem_cons_of_mem s hx))
        (by
          rw [hrender] at hfuel
          simp only [List.length_cons, List.length_append] at hfuel ⊢
          omega)]
      simp

/-- `dropWhile` is idempotent. -/
theorem dropWhile_dropWhile (p : Char → Bool) :
    ∀ l : List Char, (l.dropWhile p).dropWhile p = l.dropWhile p := by
  intro l
  induction l with
  | nil => rfl
  | cons c t ih =>
    rw [List.dropWhile_cons]
    by_cases hc : p c = true
    · rw [if_pos hc]
      exact ih
    · rw [if_neg hc, List.dropWhile_cons, if_neg hc]

/-- A fixed point of `dropWhile` has an unsatisfying head. -/
theorem head_false_of_dropWhile_eq_self (p : Char → Bool) (c : Char)
    (t : List Char) (h : (c :: t).dropWhile p = c :: t) : p c = false := by
  by_cases hc : p c = true
  · exfalso
    rw [List.dropWhile_cons, if_pos hc] at h
    have hle : (t.dropWhile p).length ≤ t.length :=
      (List.dropWhile_sublist p).length_le
    rw [h] at hle
    simp at hle
  · exact Bool.not_eq_true _ ▸ (Bool.eq_false_iff.mpr hc)

/-- Sufficient condition for `strip` to be the identity. -/
theorem stripChars_eq_self_of (l : List Char)
    (h1 : l.dropWhile isPyWs = l)
    (h2 : l.reverse.dropWhile isPyWs = l.reverse) : stripChars l = l := by
  unfold stripChars
  rw [h1, h2, List.reverse_reverse]

/-- `strip l = l` forces both ends to be whitespace-free. -/
theorem strip_eq_self_parts (l : List Char) (h : stripChars l = l) :
    l.dropWhile isPyWs = l ∧ l.reverse.dropWhile isPyWs = l.reverse := by
  have hu : l.dropWhile isPyWs = l := by
    have hsub1 : ((l.dropWhile isPyWs).reverse.dropWhile isPyWs).length ≤
        (l.dropWhile isPyWs).length := by
      calc ((l.dropWhile isPyWs).reverse.dropWhile isPyWs).length
          ≤ (l.dropWhile isPyWs).reverse.length :=
            (List.dropWhile_sublist isPyWs).length_le
        _ = (l.dropWhile isPyWs).length := List.length_reverse _
    have hlen : (stripChars l).length ≤ (l.dropWhile isPyWs).length := by
      unfold stripChars
      rw [List.length_reverse]
      exact hsub1
    rw [h] at hlen
    exact (List.dropWhile_sublist isPyWs).eq_of_length
      (Nat.le_antisymm ((List.dropWhile_sublist isPyWs).length_le) hlen)
  constructor
  · exact hu
  · have h' : stripChars l = l := h
    unfold stripChars at h'
    rw [hu] at h'
    have := congrArg List.reverse h'
    rwa [List.reverse_reverse] at this

/-- The last character of a correctly marked rendering is the last
character of its last segment, hence not whitespace when the segments are
stripped and non-empty. -/
theorem renderMarked_reverse :
    ∀ (segs : List (List Char)) (i : Nat),
      segs ≠ [] → (∀ s ∈ segs, stripChars s = s ∧ s ≠ []) →
      ∃ c r, (renderMarked i segs).reverse = c :: r ∧ isPyWs c = false := by
  intro segs
  induction segs with
  | nil => intro i h _; exact absurd rfl h
  | cons s ss ih =>
    intro i _ hseg
    cases ss with
    | nil =>
      obtain ⟨hstrip, hne⟩ := hseg s (List.mem_cons_self s [])
      obtain ⟨c, r, hcr⟩ : ∃ c r, s.reverse = c :: r := by
        cases hrev : s.reverse with
        | nil =>
          exfalso
          have := congrArg List.reverse hrev
          rw [List.reverse_reverse] at this
          exact hne this
        | cons c r => exact ⟨c, r, rfl⟩
      have hcw : isPyWs c = false := by
        have hparts := (strip_eq_self_parts s hstrip).2
        rw [hcr] at hparts
        exact head_false_of_dropWhile_eq_self isPyWs c r hparts
      refine ⟨c, r ++ (markerChars i).reverse, ?_, hcw⟩
      show (markerChars i ++ (s ++ renderMarked (i + 1) [])).reverse = _
      rw [show renderMarked (i + 1) ([] : List (List Char)) = [] from rfl,
        List.append_nil, List.reverse_append, hcr]
      rfl
    | cons s2 ss2 =>
      obtain ⟨c, r, hcr, hcw⟩ := ih (i + 1) (by simp)
        (fun x hx => hseg x (List.mem_cons_of_mem s hx))
      refine ⟨c, r ++ (markerChars i ++ s).reverse, ?_, hcw⟩
      show (markerChars i ++ (s ++ renderMarked (i + 1) (s2 :: ss2))).reverse
        = _
      rw [← List.append_assoc, List.reverse_append, hcr]
      rfl

/-- Stripping a correctly marked rendering is the identity. -/
theorem stripChars_renderMarked (segs : List (List Char)) (i : Nat)
    (hne : segs ≠ []) (hseg : ∀ s ∈ segs, stripChars s = s ∧ s ≠ []) :
    stripChars (renderMarked i segs) = renderMarked i segs := by
  obtain ⟨s, ss, rfl⟩ : ∃ s ss, segs = s :: ss := by
    cases segs with
    | nil => exact absurd rfl hne
    | cons s ss => exact ⟨s, ss, rfl⟩
  apply stripChars_eq_self_of
  · show ((markerChars i ++ (s ++ renderMarked (i + 1) ss)).dropWhile isPyWs)
      = _
    rw [show markerChars i ++ (s ++ renderMarked (i + 1) ss) =
        'I' :: (('s' :: 's' :: 'u' :: 'e' :: ' ' :: '#' ::
          (natChars i ++ ':' :: [])) ++ (s ++ renderMarked (i + 1) ss))
      from rfl]
    rw [List.dropWhile_cons, if_neg (by decide)]
    rfl
  · obtain ⟨c, r, hcr, hcw⟩ := renderMarked_reverse (s :: ss) i hne hseg
    rw [hcr, List.dropWhile_cons, if_neg (by rw [hcw]; simp)]

/-- `strip` is idempotent. -/
theorem stripChars_idem (l : List Char) :
    stripChars (stripChars l) = stripChars l := by
  set u := l.dropWhile isPyWs with hu
  set v := u.reverse.dropWhile isPyWs with hv
  have hstrip : stripChars l = v.reverse := rfl
  apply stripChars_eq_self_of
  · rw [hstrip]
    cases hrv : v.reverse with
    | nil => rfl
    | cons c w =>
      have hvsuf : v <:+ u.reverse := List.dropWhile_suffix isPyWs
      obtain ⟨t, ht⟩ := hvsuf
      have hueq : u = v.reverse ++ t.reverse := by
        have := congrArg List.reverse ht
        rw [List.reverse_append, List.reverse_reverse] at this
        exact this.symm
      have huu : u.dropWhile isPyWs = u := dropWhile_dropWhile isPyWs l
      rw [hrv] at hueq
      rw [List.cons_append] at hueq
      have hcfalse : isPyWs c = false := by
        apply head_false_of_dropWhile_eq_self isPyWs c (w ++ t.reverse)
        rw [← hueq]
        exact huu
      rw [List.dropWhile_cons, if_neg (by rw [hcfalse]; simp)]
  · rw [hstrip, List.reverse_reverse]
    exact dropWhile_dropWhile isPyWs u.reverse

/-- On a correctly marked rendering whose segments are stripped, longer
than 50 characters and free of `issue`, the primary strategy succeeds and
returns exactly the segments. -/
theorem trySplit_matchP1_render (segs : List (List Char)) (N : Nat)
    (hne : segs ≠ [])
    (hseg : ∀ s ∈ segs, stripChars s = s ∧ 50 < s.length ∧
      hasSubCI issueCI s = false)
    (hN : segs.length = N) :
    trySplit matchP1 (renderMarked 1 segs) N = some segs := by
  have hsegne : ∀ s ∈ segs, s ≠ [] := by
    intro s hs
    have := (hseg s hs).2.1
    intro hnil
    rw [hnil] at this
    simp at this
  unfold trySplit
  dsimp only
  have hsplit : splitBy matchP1 (renderMarked 1 segs) = [] :: segs := by
    unfold splitBy
    rw [splitByAux_renderMarked segs 1 [] (renderMarked 1 segs).length hne
      (fun s hs => (hseg s hs).2.2) (le_refl _)]
    rfl
  rw [hsplit]
  have hmap : ([] :: segs).map stripChars = [] :: segs := by
    show stripChars [] :: segs.map stripChars = [] :: segs
    rw [show stripChars ([] : List Char) = [] from rfl]
    congr 1
    calc segs.map stripChars
        = segs.map id := List.map_congr_left (fun s hs => (hseg s hs).1)
      _ = segs := List.map_id segs
  rw [hmap]
  have hfil1 : (([] :: segs) : List (List Char)).filter
      (fun p => p ≠ []) = segs := by
    rw [List.filter_cons]
    simp only [decide_not]
    rw [if_neg (by simp)]
    exact List.filter_eq_self.mpr (fun s hs => by
      simpa using hsegne s hs)
  rw [hfil1]
  have hfil2 : segs.filter (fun p => 50 < p.length) = segs :=
    List.filter_eq_self.mpr (fun s hs => by
      simpa using (hseg s hs).2.1)
  rw [hfil2]
  rw [if_pos (le_of_eq hN.symm)]
  rw [← hN, List.take_length]

/-- On a correctly marked response the whole cascade reduces to the
primary strategy. -/
theorem splitCombinedAnalysis_render (segs : List (List Char)) (N : Nat)
    (hne : segs ≠ [])
    (hseg : ∀ s ∈ segs, stripChars s = s ∧ 50 < s.length ∧
      hasSubCI issueCI s = false)
    (hN : segs.length = N) :
    splitCombinedAnalysis (renderMarked 1 segs) N = segs := by
  unfold splitCombinedAnalysis
  dsimp only
  rw [stripChars_renderMarked segs 1 hne
    (fun s hs => ⟨(hseg s hs).1, fun hnil => by
      have := (hseg s hs).2.1
      rw [hnil] at this
      simp at this⟩)]
  rw [trySplit_matchP1_render segs N hne hseg hN]
  rw [Option.some_orElse]

/-- When every segment is usable and there are no more segments than
issues, the enumerate loop emits exactly one evidence per segment. -/
theorem buildPerIssueAux_full_length (issues : List CoreIssue) :
    ∀ (segs : List (List Char)) (idx : Nat),
      (∀ s ∈ segs, stripChars s ≠ []) →
      idx + segs.length ≤ issues.length →
      (buildPerIssueAux issues idx segs).length = segs.length := by
  intro segs
  induction segs with
  | nil => intro idx _ _; rfl
  | cons s rest ih =>
    intro idx hstrip hbound
    unfold buildPerIssueAux
    rw [if_pos ⟨hstrip s (List.mem_cons_self s rest), by
      simp only [List.length_cons] at hbound
      omega⟩]
    simp only [List.length_cons]
    rw [ih (idx + 1) (fun x hx => hstrip x (List.mem_cons_of_mem s hx)) (by
      simp only [List.length_cons] at hbound
      omega)]

/-- Under the same conditions the emitted citations are
`Reasoning LLM Analysis - Issue (idx+1), (idx+2), …` in order. -/
theorem buildPerIssueAux_citations (issues : List CoreIssue) :
    ∀ (segs : List (List Char)) (idx : Nat),
      (∀ s ∈ segs, stripChars s ≠ []) →
      idx + segs.length ≤ issues.length →
      (buildPerIssueAux issues idx segs).map RetrievalSource.citation =
        (List.range segs.length).map
          (fun j => ("Reasoning LLM Analysis - Issue ".toList) ++
            natChars (idx + j + 1)) := by
  intro segs
  induction segs with
  | nil => intro idx _ _; rfl
  | cons s rest ih =>
    intro idx hstrip hbound
    unfold buildPerIssueAux
    rw [if_pos ⟨hstrip s (List.mem_cons_self s rest), by
      simp only [List.length_cons] at hbound
      omega⟩]
    simp only [List.length_cons, List.map_cons]
    rw [ih (idx + 1) (fun x hx => hstrip x (List.mem_cons_of_mem s hx)) (by
      simp only [List.length_cons] at hbound
      omega)]
    rw [List.range_succ_eq_map, List.map_cons, List.map_map]
    refine List.cons_eq_cons.mpr ⟨?_, ?_⟩
    · rfl
    · apply List.map_congr_left
      intro j _
      show ("Reasoning LLM Analysis - Issue ".toList) ++
          natChars (idx + 1 + j + 1) =
        ("Reasoning LLM Analysis - Issue ".toList) ++
          natChars (idx + (j + 1) + 1)
      rw [show idx + 1 + j + 1 = idx + (j + 1) + 1 from by omega]

/-- "No recognizable markers": every strategy of the cascade fails on the
cleaned text, leaving only the equal-size chunk fallback. -/
def noSplitStrategyApplies (cleaned : List Char) (expected : Nat) : Prop :=
  trySplit matchP1 cleaned expected = none ∧
  trySplit matchP2 cleaned expected = none ∧
  trySplit matchP3 cleaned expected = none ∧
  trySplit matchP4 cleaned expected = none ∧
  trySplit matchP5 cleaned expected = none ∧
  trySplit matchP6 cleaned expected = none ∧
  trySplit matchP7 cleaned expected = none ∧
  trySplit matchP8 cleaned expected = none ∧
  trySplit matchP9 cleaned expected = none ∧
  tryHeaderSplit matchHdr1 cleaned expected = none ∧
  tryHeaderSplit matchHdr2 cleaned expected = none

instance (cleaned : List Char) (expected : Nat) :
    Decidable (noSplitStrategyApplies cleaned expected) :=
  inferInstanceAs (Decidable (_ ∧ _))

/-- With no recognizable markers the cascade lands in the chunk
fallback. -/
theorem splitCombinedAnalysis_of_noStrategy (text : List Char) (N : Nat)
    (h : noSplitStrategyApplies (stripChars text) N) :
    splitCombinedAnalysis text N = chunkFallback (stripChars text) N := by
  obtain ⟨h1, h2, h3, h4, h5, h6, h7, h8, h9, h10, h11⟩ := h
  unfold splitCombinedAnalysis
  dsimp only
  rw [h1, h2, h3, h4, h5, h6, h7, h8, h9, h10, h11]
  rfl

/-- With enough fuel, at least `N` chunks are cut whenever `N · cs` fits in
the text. -/
theorem rawChunksF_count (cs : Nat) (hcs : 0 < cs) :
    ∀ (N fuel : Nat) (text : List Char),
      text.length ≤ fuel + 1 → N * cs ≤ text.length →
      N ≤ (rawChunksF cs fuel text).length := by
  intro N
  induction N with
  | zero => intro fuel text _ _; exact Nat.zero_le _
  | succ n ih =>
    intro fuel text hfuel hlen
    have hcsle : cs ≤ text.length := by
      rw [Nat.succ_mul] at hlen
      omega
    cases text with
    | nil =>
      exfalso
      simp at hcsle
      omega
    | cons c rest =>
      cases fuel with
      | zero =>
        have hone : (c :: rest).length ≤ 1 := hfuel
        have : n + 1 ≤ (n + 1) * cs := by
          calc n + 1 = (n + 1) * 1 := by omega
            _ ≤ (n + 1) * cs := Nat.mul_le_mul_left _ hcs
        show n + 1 ≤ ([c :: rest] : List (List Char)).length
        simp only [List.length_cons, List.length_singleton]
        omega
      | succ f =>
        show n + 1 ≤ ((c :: rest).take cs ::
          rawChunksF cs f ((c :: rest).drop cs)).length
        simp only [List.length_cons]
        have hrec := ih f ((c :: rest).drop cs)
          (by
            rw [List.length_drop]
            simp only [List.length_cons] at hfuel ⊢
            omega)
          (by
            rw [List.length_drop, Nat.succ_mul] at *
            omega)
        omega

/-- The chunk fallback emits at most `expected` segments, all non-blank;
and exactly `expected` when the text holds `300 · expected` characters and
no chunk is entirely whitespace. -/
theorem chunkFallback_spec (cleaned : List Char) (N : Nat) :
    (chunkFallback cleaned N).length ≤ N ∧
    (∀ s ∈ chunkFallback cleaned N, stripChars s ≠ []) ∧
    (0 < N → 300 * N ≤ cleaned.length →
      (∀ c ∈ rawChunks (max 300 (cleaned.length / N)) cleaned,
        stripChars c ≠ []) →
      (chunkFallback cleaned N).length = N) := by
  refine ⟨?_, ?_, ?_⟩
  · unfold chunkFallback
    rw [List.length_take]
    exact Nat.min_le_left _ _
  · intro s hs
    unfold chunkFallback at hs
    have hs2 := (List.take_sublist _ _).subset hs
    have hs3 := List.mem_filter.mp hs2
    obtain ⟨c, _, hc⟩ := List.mem_map.mp hs3.1
    have hne : s ≠ [] := by simpa using hs3.2
    rw [← hc, stripChars_idem]
    rw [hc]
    exact hne
  · intro hN0 hlen hchunks
    unfold chunkFallback
    set cs := max 300 (cleaned.length / N) with hcs
    have h300 : 300 ≤ cleaned.length / N :=
      (Nat.le_div_iff_mul_le hN0).mpr hlen
    have hcseq : cs = cleaned.length / N := max_eq_right h300
    have hfil : ((rawChunks cs cleaned).map stripChars).filter
        (fun p => p ≠ []) = (rawChunks cs cleaned).map stripChars := by
      apply List.filter_eq_self.mpr
      intro a ha
      obtain ⟨c, hcmem, hceq⟩ := List.mem_map.mp ha
      simpa using (hceq ▸ hchunks c hcmem)
    dsimp only
    rw [hfil, List.length_take, List.length_map]
    have hcount : N ≤ (rawChunks cs cleaned).length := by
      unfold rawChunks
      apply rawChunksF_count cs (by omega) N cleaned.length cleaned
        (by omega)
      rw [hcseq]
      calc N * (cleaned.length / N) = (cleaned.length / N) * N := by
            rw [Nat.mul_comm]
        _ ≤ cleaned.length := Nat.div_mul_le_self _ _
    omega

/-- C5 (amended): (a) on a correctly marked response — each `Issue #i:`
segment trimmed, longer than 50 characters and free of stray `issue`
occurrences — `retrieve` emits exactly one non-empty evidence per issue,
in issue order (citations `… - Issue 1, 2, …`); (b) the equal-size
chunk-split fallback emits at most `N` segments, and when no strategy
recognizes a marker, `retrieve` emits exactly `N` evidence items only
under the additional conditions that the cleaned response holds at least
`300·N` characters and no chunk is entirely whitespace. -/
theorem llm_split_marked_and_chunk :
    (∀ (issues : List CoreIssue) (ents : List ExtractedEntity)
        (segs : List (List Char)),
      issues ≠ [] →
      segs.length = issues.length →
      (∀ s ∈ segs, stripChars s = s ∧ 50 < s.length ∧
        hasSubCI issueCI s = false) →
      (llmRetrieve true issues ents
          (Except.ok (some (renderMarked 1 segs)))).length = issues.length ∧
      (llmRetrieve true issues ents
          (Except.ok (some (renderMarked 1 segs)))).map
            RetrievalSource.citation =
        (List.range issues.length).map
          (fun j => ("Reasoning LLM Analysis - Issue ".toList) ++
            natChars (j + 1)) ∧
      (∀ e ∈ llmRetrieve true issues ents
          (Except.ok (some (renderMarked 1 segs))), e.content ≠ [])) ∧
    (∀ (text : List Char) (N : Nat), (chunkFallback text N).length ≤ N) ∧
    (∀ (issues : List CoreIssue) (ents : List ExtractedEntity)
        (text : List Char),
      issues ≠ [] →
      noSplitStrategyApplies (stripChars text) issues.length →
      300 * issues.length ≤ (stripChars text).length →
      (∀ c ∈ rawChunks
          (max 300 ((stripChars text).length / issues.length))
          (stripChars text), stripChars c ≠ []) →
      (llmRetrieve true issues ents (Except.ok (some text))).length =
        issues.length) := by
  refine ⟨?_, fun text N => (chunkFallback_spec text N).1, ?_⟩
  · intro issues ents segs hiss hlen hseg
    have hN0 : 0 < issues.length := List.length_pos.mpr hiss
    have hsegsne : segs ≠ [] := by
      intro hnil
      rw [hnil] at hlen
      simp at hlen
      omega
    have hsegne : ∀ s ∈ segs, s ≠ [] := by
      intro s hs hnil
      have := (hseg s hs).2.1
      rw [hnil] at this
      simp at this
    have hstripne : ∀ s ∈ segs, stripChars s ≠ [] := by
      intro s hs
      rw [(hseg s hs).1]
      exact hsegne s hs
    have hstriprender := stripChars_renderMarked segs 1 hsegsne
      (fun s hs => ⟨(hseg s hs).1, hsegne s hs⟩)
    have hsplitC := splitCombinedAnalysis_render segs issues.length hsegsne
      hseg hlen
    have hunf : llmRetrieve true issues ents
        (Except.ok (some (renderMarked 1 segs))) =
        (if buildPerIssueAux issues 0
              (splitCombinedAnalysis (stripChars (renderMarked 1 segs))
                issues.length) = [] ∧
            stripChars (stripChars (renderMarked 1 segs)) ≠ [] then
           [combinedEvidence issues (stripChars (renderMarked 1 segs))]
         else
           buildPerIssueAux issues 0
             (splitCombinedAnalysis (stripChars (renderMarked 1 segs))
               issues.length)) := by
      simp [llmRetrieve, hiss]
    rw [hstriprender, hsplitC] at hunf
    have hbuildlen : (buildPerIssueAux issues 0 segs).length = segs.length :=
      buildPerIssueAux_full_length issues segs 0 hstripne (by omega)
    have hbne : buildPerIssueAux issues 0 segs ≠ [] := by
      intro hnil
      rw [hnil] at hbuildlen
      simp at hbuildlen
      rw [← hbuildlen] at hlen
      omega
    rw [if_neg (fun hc => hbne hc.1)] at hunf
    rw [hunf]
    refine ⟨by rw [hbuildlen, hlen], ?_, ?_⟩
    · rw [buildPerIssueAux_citations issues segs 0 hstripne (by omega), hlen]
      apply List.map_congr_left
      intro j _
      rw [show 0 + j + 1 = j + 1 from by omega]
    · intro e he
      obtain ⟨j, a, hja⟩ := mem_buildPerIssueAux issues segs 0 e he
      rw [hja]
      exact perIssueEvidence_content_ne_nil issues j a
  · intro issues ents text hiss hno hlen hchunks
    have hN0 : 0 < issues.length := List.length_pos.mpr hiss
    have hno' : noSplitStrategyApplies (stripChars (stripChars text))
        issues.length := by
      rw [stripChars_idem]
      exact hno
    have hsplit := splitCombinedAnalysis_of_noStrategy (stripChars text)
      issues.length hno'
    rw [stripChars_idem] at hsplit
    obtain ⟨hle, hmem, hexact⟩ :=
      chunkFallback_spec (stripChars text) issues.length
    have hcflen : (chunkFallback (stripChars text) issues.length).length =
        issues.length := hexact hN0 hlen hchunks
    have hunf : llmRetrieve true issues ents (Except.ok (some text)) =
        (if buildPerIssueAux issues 0
              (splitCombinedAnalysis (stripChars text) issues.length)
              = [] ∧ stripChars (stripChars text) ≠ [] then
           [combinedEvidence issues (stripChars text)]
         else
           buildPerIssueAux issues 0
             (splitCombinedAnalysis (stripChars text) issues.length)) := by
      simp [llmRetrieve, hiss]
    rw [hsplit] at hunf
    have hbuildlen : (buildPerIssueAux issues 0
        (chunkFallback (stripChars text) issues.length)).length =
        (chunkFallback (stripChars text) issues.length).length :=
      buildPerIssueAux_full_length issues _ 0 hmem (by omega)
    have hbne : buildPerIssueAux issues 0
        (chunkFallback (stripChars text) issues.length) ≠ [] := by
      intro hnil
      rw [hnil] at hbuildlen
      simp at hbuildlen
      rw [hcflen] at hbuildlen
      omega
    rw [if_neg (fun hc => hbne hc.1)] at hunf
    rw [hunf, hbuildlen, hcflen]

set_option maxRecDepth 40000 in
/-- Counterexample to C5 as stated: with two issues, a correctly marked
response with short segments (`Issue #1: aa Issue #2: bb`) yields one
evidence, not two — the short segments are discarded by the 50-character
filter and the chunk fallback cuts one 300-character chunk; likewise an
unmarked 100-character response yields one chunk, not two. -/
theorem llm_split_counterexample :
    (llmRetrieve true [⟨['a'], [], 1⟩, ⟨['b'], [], 1⟩] []
      (Except.ok (some ("Issue #1: aa Issue #2: bb".toList)))).length = 1 ∧
    (llmRetrieve true [⟨['a'], [], 1⟩, ⟨['b'], [], 1⟩] []
      (Except.ok (some (List.replicate 100 'a')))).length = 1 := by
  constructor
  · decide
  · decide

set_option maxRecDepth 100000 in
set_option maxHeartbeats 1000000 in
/-- Witness for C5 at concrete inputs: one 60-character marked segment
(exactly one evidence, citation `Issue 1`), and a 600-character unmarked
response split into two 300-character chunks for two issues. -/
theorem llm_split_marked_and_chunk_witness :
    (llmRetrieve true [⟨['t'], [], 1⟩] []
        (Except.ok (some (renderMarked 1 [List.replicate 60 'x'])))).length
      = 1 ∧
    (llmRetrieve true [⟨['a'], [], 1⟩, ⟨['b'], [], 1⟩] []
        (Except.ok (some (List.replicate 600 'a')))).length = 2 :=
  ⟨(llm_split_marked_and_chunk.1 [⟨['t'], [], 1⟩] []
      [List.replicate 60 'x'] (by decide) (by decide) (by decide)).1,
   llm_split_marked_and_chunk.2.2 [⟨['a'], [], 1⟩, ⟨['b'], [], 1⟩] []
     (List.replicate 600 'a') (by decide) (by decide) (by decide)
     (by decide)⟩

end TicketPipeline
